import Mathlib

/-!
# Verification of the ptsa wavelet core (`ptsa/wavelet_obsolete.py`)

A shallow embedding of the wavelet-bank builders (`morlet_multi`,
`morlet_multi2`), the FFT batched convolution (`fconv_multi`) and the
phase/power extractors (`phase_pow_multi`, `phase_pow_multi2`), over exact
real/complex arithmetic (ℝ/ℂ stand for the floating-point values).
Matrices are lists of row lists; N-dimensional arrays are a `shape` plus
row-major `data`.  Python `raise` sites become `Except` errors; numpy
operations that raise on ill-shaped input become `Option`/`Except`
failures.  Helpers that the repository imports from modules not shipped
with the source (`ptsa.helper`, `ptsa.fixed_scipy`) are modelled from the
specification and carry a doc comment saying so.
-/

namespace Ptsa

noncomputable section

open scoped Real

/-- Error taxonomy of the spec (§7); the source raises `ValueError` at the
corresponding sites. `emptyDataError` models `N.max` on an empty array,
`depthError` models numpy's rank errors in `N.convolve`. -/
inductive WvError where
  | configurationError
  | insufficientDataError
  | invalidModeError
  | emptyDataError
  | depthError
deriving DecidableEq

/-- `numpy.linspace(a, b, m)` with the default `endpoint=True`. -/
def linspace (a b : ℝ) (m : ℕ) : List ℝ :=
  if m = 1 then [a]
  else (List.range m).map (fun (j : ℕ) => a + (j : ℝ) * (b - a) / ((m : ℝ) - 1))

/-- Modelled from the spec: `ptsa.fixed_scipy.morlet` is imported by the
source but not under src/.  Spec §4.1: the canonical (scipy) Morlet kernel,
a Gaussian-enveloped complex exponential carrier on the grid
`x = linspace(-s*2*pi, s*2*pi, m)`; when `complete` is true the constant
`exp(-w^2/2)` is subtracted from the carrier to remove the residual DC
component: `psi(x) = (exp(i*w*x) [- exp(-w^2/2)]) * exp(-x^2/2) * pi^(-1/4)`. -/
def morlet_wavelet (m : ℕ) (w s : ℝ) (complete : Bool) : List ℂ :=
  (linspace (-(s * 2 * π)) (s * 2 * π) m).map fun (x : ℝ) =>
    (if complete then
      Complex.exp (Complex.I * Complex.ofReal w * Complex.ofReal x)
        - Complex.ofReal (Real.exp (-(w ^ 2) / 2))
     else Complex.exp (Complex.I * Complex.ofReal w * Complex.ofReal x))
    * Complex.ofReal (Real.exp (-(x ^ 2) / 2) * (π : ℝ) ^ (-(1 : ℝ) / 4))

/-- `widths.repeat(len(freqs)/len(widths))`: numpy's elementwise repeat with
the Python-2 integer division of the source — each width is replicated
`len(freqs) / len(widths)` times, in place (contiguous blocks). -/
def broadcastWidths (widths : List ℝ) (nf : ℕ) : List ℝ :=
  (widths.map (List.replicate (nf / widths.length))).flatten

/-- `sqrt(sum(abs(row)**2)/samplerate)` — the per-row energy norm used by all
three normalization sites of the source. -/
def rowEnergySum (row : List ℂ) : ℝ :=
  (row.map (fun z => Complex.abs z ^ 2)).sum

/-- Divide a wavelet row by its energy norm (`wavelets*norm_factors` in the
source, with `norm_factors = 1/energy` broadcast along the row). -/
def normalizeRow (samplerate : ℝ) (row : List ℂ) : List ℂ :=
  row.map (fun z => z / ((Real.sqrt (rowEnergySum row / samplerate) : ℝ) : ℂ))

/-- `st = widths/(2*pi*freqs)` after broadcasting: the per-wavelet standard
deviations in the time domain (source lines 97 and 198). -/
def bankSt (freqs widths : List ℝ) : List ℝ :=
  List.zipWith (fun w f => w / (2 * π * f)) (broadcastWidths widths freqs.length) freqs

/-- `N.max` of a nonempty list (0 for the empty list, which the source
never reaches: numpy raises there). -/
def listMaxD (l : List ℝ) : ℝ :=
  match l with
  | [] => 0
  | x :: xs => xs.foldl max x

/-- `samples = ceil(max(st)*samplerate*sampling_window)` — the shared sample
count of the uniform bank (source line 101). -/
def sharedSamples (freqs widths : List ℝ) (samplerate sampling_window : ℝ) : ℕ :=
  ⌈listMaxD (bankSt freqs widths) * samplerate * sampling_window⌉₊

/-- `samples = ceil(st*samplerate*sampling_window)` — the per-wavelet sample
counts of the split bank (source line 202). -/
def perSamples (freqs widths : List ℝ) (samplerate sampling_window : ℝ) : List ℕ :=
  (bankSt freqs widths).map (fun s => ⌈s * samplerate * sampling_window⌉₊)

/-- `fft_ind = samples > fft_thresh` — the FFT-group membership mask
(source line 207). -/
def fftMask (freqs widths : List ℝ) (samplerate fft_thresh sampling_window : ℝ) :
    List Bool :=
  (perSamples freqs widths samplerate sampling_window).map
    (fun (n : ℕ) => decide (fft_thresh < (n : ℝ)))

/-- The wavelet matrix of the uniform bank: one Morlet row per frequency at
the shared sample count, scale `freq*samples/(2*width*samplerate)` (source
lines 105–110), each row normalized to unit energy (lines 115–117). -/
def uniformBank (freqs widths : List ℝ) (samplerate sampling_window : ℝ)
    (complete : Bool) : List (List ℂ) :=
  let widthsB := broadcastWidths widths freqs.length
  let samples := sharedSamples freqs widths samplerate sampling_window
  let scales := List.zipWith
    (fun f w => f * (samples : ℝ) / (2 * w * samplerate)) freqs widthsB
  let wavelets := List.zipWith
    (fun w s => morlet_wavelet samples w s complete) widthsB scales
  wavelets.map (normalizeRow samplerate)

/-- `morlet_multi(freqs, widths, samplerate, sampling_window, complete)`
(source lines 21–117): broadcast the widths, compute the time-domain
standard deviations `st = widths/(2*pi*freqs)`, take one shared sample
count `ceil(max(st)*samplerate*sampling_window)`, build one Morlet row per
frequency at scale `freq*samples/(2*width*samplerate)` and normalize each
row to unit energy. -/
def morlet_multi (freqs widths : List ℝ) (samplerate sampling_window : ℝ)
    (complete : Bool) : Except WvError (List (List ℂ)) :=
  let widthsB := broadcastWidths widths freqs.length
  if widthsB.length ≠ freqs.length then .error .configurationError
  else
    match bankSt freqs widths with
    | [] => .error .emptyDataError
    | _ :: _ => .ok (uniformBank freqs widths samplerate sampling_window complete)

/-- `l[mask]`: numpy boolean-mask selection of the elements of `l` whose mask
entry is true, in order. -/
def maskFilter (l : List α) (mask : List Bool) : List α :=
  (l.zip mask).filterMap (fun p => if p.2 then some p.1 else none)

/-- `morlet_multi2(freqs, widths, samplerate, fft_thresh, sampling_window,
complete)` (source lines 120–243): per-wavelet sample counts
`ceil(st*samplerate*sampling_window)`; wavelets whose count exceeds
`fft_thresh` form a rectangular FFT group at the group's maximum length,
the rest are built at their own individual lengths; both groups are
energy-normalized; returns `(fft_wavelets, reg_norm_wavelets, fft_ind)`.
When no wavelet exceeds the threshold the FFT group is `[[]]`
(numpy `N.array([[]])`, shape `(1,0)`). -/
def morlet_multi2 (freqs widths : List ℝ) (samplerate fft_thresh sampling_window : ℝ)
    (complete : Bool) :
    Except WvError (List (List ℂ) × List (List ℂ) × List Bool) :=
  let widthsB := broadcastWidths widths freqs.length
  if widthsB.length ≠ freqs.length then .error .configurationError
  else
    let samples := perSamples freqs widths samplerate sampling_window
    let fft_ind := fftMask freqs widths samplerate fft_thresh sampling_window
    let fft_wavelets :=
      if fft_ind.any id then
        let fft_samples := (maskFilter samples fft_ind).foldl max 0
        let fft_freqs := maskFilter freqs fft_ind
        let fft_widths := maskFilter widthsB fft_ind
        let fft_scales := List.zipWith
          (fun f w => f * (fft_samples : ℝ) / (2 * w * samplerate)) fft_freqs fft_widths
        (List.zipWith (fun w s => morlet_wavelet fft_samples w s complete)
          fft_widths fft_scales).map (normalizeRow samplerate)
      else [[]]
    let notInd := fft_ind.map (fun b => !b)
    let reg_samples := maskFilter samples notInd
    let reg_freqs := maskFilter freqs notInd
    let reg_widths := maskFilter widthsB notInd
    let reg_wavelets := (reg_freqs.zip (reg_widths.zip reg_samples)).map
      (fun t => morlet_wavelet t.2.2 t.2.1
        (t.1 * (t.2.2 : ℝ) / (2 * t.2.1 * samplerate)) complete)
    .ok (fft_wavelets, reg_wavelets.map (normalizeRow samplerate), fft_ind)

/-- Modelled from the spec: `ptsa.helper.nextPow2` is imported by the source
but not under src/.  Spec §4.2: the pad length is the next power of two at
least the linear-convolution length, so `nextPow2 n` is the least exponent
`k` with `2^k ≥ n` (the ceiling base-2 logarithm). -/
def nextPow2 (n : ℕ) : ℕ := Nat.clog 2 n

/-- Modelled from the spec: `ptsa.helper.centered` is imported by the source
but not under src/.  Spec §4.2: center-crop a row to `newsize`, trimming the
excess symmetrically from both ends and, when the excess is odd, trimming
the extra sample from the front. -/
def centered (row : List α) (newsize : ℕ) : List α :=
  (row.drop ((row.length - newsize + 1) / 2)).take newsize

/-- `scipy.fftpack.fft(x, n)` in the exact-arithmetic model: truncate or
zero-pad `x` to length `n`, then the discrete Fourier transform
`X_k = sum_j x_j * exp(-2*pi*i*j*k/n)`. -/
def fftn (x : List ℂ) (n : ℕ) : List ℂ :=
  let xp := x.take n ++ List.replicate (n - x.length) (0 : ℂ)
  (List.range n).map fun (k : ℕ) =>
    ((xp.zip (List.range n)).map fun p =>
      p.1 * Complex.exp (-2 * Complex.ofReal π * Complex.I * (p.2 : ℂ) * (k : ℂ) / (n : ℂ))).sum

/-- `scipy.fftpack.ifft(y)` in the exact-arithmetic model: the inverse
discrete Fourier transform `x_j = (1/n) * sum_k y_k * exp(2*pi*i*j*k/n)`. -/
def ifftn (y : List ℂ) : List ℂ :=
  (List.range y.length).map fun (j : ℕ) =>
    (((y.zip (List.range y.length)).map fun p =>
      p.1 * Complex.exp
        (2 * Complex.ofReal π * Complex.I * (p.2 : ℂ) * (j : ℂ) / (y.length : ℂ))).sum)
    / (y.length : ℂ)

/-- `fconv_multi(in1, in2, mode)` (source lines 246–327): FFT both inputs
row-wise at the padded size, form every pairwise product by duplicating
`in1`'s transforms (`repeat`, row-block outer) against stacked copies of
`in2`'s transforms (`vstack`, inner), inverse-transform, truncate each row
to the linear length `s1+s2-1`, drop imaginary parts when both inputs were
real (`complexResult` models the `issubdtype` test on the dtypes), and crop
according to `mode`.  A mode other than `full`/`same`/`valid` falls off the
end of the Python function and returns `None`.

The body up to the `mode` dispatch (source lines 274–315) is `fconvRows`:
FFT every row of both inputs at the padded power-of-two size, duplicate and
stack, multiply pairwise, inverse-transform and truncate each row to the
linear-convolution length `s1+s2-1`. -/
def fconvRows (in1 in2 : List (List ℂ)) : List (List ℂ) :=
  let num1 := in1.length
  let s1 := (in1.headD []).length
  let num2 := in2.length
  let s2 := (in2.headD []).length
  let actual_size := s1 + s2 - 1
  let size := 2 ^ nextPow2 actual_size
  let in1_fft := in1.map (fun r => fftn r size)
  let in2_fft := in2.map (fun r => fftn r size)
  let rep1 := (in1_fft.map (List.replicate num2)).flatten
  let rep2 := (List.replicate num1 in2_fft).flatten
  let prod := List.zipWith (List.zipWith (· * ·)) rep1 rep2
  (prod.map ifftn).map (List.take actual_size)

def fconv_multi (in1 in2 : List (List ℂ)) (mode : String) (complexResult : Bool) :
    Option (List (List ℂ)) :=
  let s1 := (in1.headD []).length
  let s2 := (in2.headD []).length
  let ret := if complexResult then fconvRows in1 in2
    else (fconvRows in1 in2).map (fun r => r.map (fun z => (Complex.ofReal z.re)))
  if mode = "full" then some ret
  else if mode = "same" then
    let osize := if s1 > s2 then s1 else s2
    some (ret.map (fun r => centered r osize))
  else if mode = "valid" then
    some (ret.map (fun r => centered r (max s1 s2 - min s1 s2 + 1)))
  else none

/-- A numpy n-dimensional array: a shape and row-major flat data. -/
structure Tensor (α : Type) where
  shape : List ℕ
  data : List α

/-- Number of elements described by a shape. -/
def shapeProd (s : List ℕ) : ℕ := s.foldl (· * ·) 1

/-- Modelled from the spec: `ptsa.helper.reshapeTo2D` is imported by the
source but not under src/.  Spec §4.4: flatten the tensor along the time
axis to a 2-D (signalIndex × time) layout; modelled for `timeAxis = -1`
(the last axis — the only case the claims exercise), where the rows are the
consecutive length-`T` chunks of the row-major data. -/
def reshapeTo2D (t : Tensor ℂ) : List (List ℂ) :=
  let T := t.shape.getLastD 0
  (List.range (shapeProd t.shape.dropLast)).map fun r => (t.data.drop (r * T)).take T

/-- Modelled from the spec: `ptsa.helper.reshapeFrom2D` is imported by the
source but not under src/.  Spec §4.4: restore the 2-D matrix to the target
shape (the original shape with the new frequency axis inserted), placing
elements consistently with the flattening order; the claims only exercise
the value passthrough, so the rows are rejoined in row-major order. -/
def reshapeFrom2D (m : List (List ℝ)) (newshape : List ℕ) : Tensor ℝ :=
  ⟨newshape, m.flatten⟩

/-- Python `list.insert(i, a)` (used for `newshape.insert(freq_axis, len(freqs))`). -/
def insertAt (i : ℕ) (a : ℕ) (l : List ℕ) : List ℕ := l.take i ++ a :: l.drop i

/-- `power = N.power(N.abs(wavCoef), 2)` elementwise. -/
def powerEntry (z : ℂ) : ℝ := Complex.abs z ^ 2

/-- Source lines 409–415 / 527–533, per entry: substitute 1 for a zero
magnitude, divide, re-zero the substituted positions, then take the angle. -/
def phaseEntry (z : ℂ) : ℝ :=
  let norm_factor := Complex.abs z
  let zeroInd := norm_factor = 0
  let nf := if zeroInd then 1 else norm_factor
  let z2 := z / Complex.ofReal nf
  let z3 := if zeroInd then 0 else z2
  Complex.arg z3

/-- `N.power(N.abs(wavCoef),2)` over the whole coefficient matrix. -/
def powerMat (wavCoef : List (List ℂ)) : List (List ℝ) :=
  wavCoef.map (fun r => r.map powerEntry)

/-- The phase computation of source lines 409–415 over the whole matrix. -/
def phaseMat (wavCoef : List (List ℂ)) : List (List ℝ) :=
  wavCoef.map (fun r => r.map phaseEntry)

/-- The result of a phase/power extractor: the fields requested by
`to_return`; for `both` the source returns the pair `(phase, power)`. -/
inductive PPResult where
  | power (p : Tensor ℝ)
  | phase (p : Tensor ℝ)
  | both (first second : Tensor ℝ)

/-- The common tail of both extractors (source lines 400–424 / 518–542):
power and phase matrices from the coefficient matrix, reshaped to the
original shape with the frequency axis inserted, dispatched on `to_return`
(for `both` the source line `return phase,power` puts phase first). -/
def ppTail (to_return : String) (wavCoef : List (List ℂ)) (newshape : List ℕ) :
    Except WvError PPResult :=
  if to_return = "power" then .ok (.power (reshapeFrom2D (powerMat wavCoef) newshape))
  else if to_return = "phase" then .ok (.phase (reshapeFrom2D (phaseMat wavCoef) newshape))
  else .ok (.both (reshapeFrom2D (phaseMat wavCoef) newshape)
                  (reshapeFrom2D (powerMat wavCoef) newshape))

/-- `phase_pow_multi(freqs, dat, samplerate, widths, to_return, time_axis=-1,
freq_axis)` (source lines 330–424): validate `to_return`, build the uniform
bank, fail with `InsufficientDataError` when the bank's sample count exceeds
the data's time length, reshape to 2-D, convolve every wavelet with every
signal row (`fconv_multi`, mode `same`), and extract power/phase. -/
def phase_pow_multi (freqs : List ℝ) (dat : Tensor ℂ) (samplerate : ℝ)
    (widths : List ℝ) (to_return : String) (freq_axis : ℕ)
    (sampling_window : ℝ) (complete : Bool) : Except WvError PPResult :=
  if to_return ≠ "both" ∧ to_return ≠ "power" ∧ to_return ≠ "phase" then
    .error .invalidModeError
  else
    match morlet_multi freqs widths samplerate sampling_window complete with
    | .error e => .error e
    | .ok wavelets =>
      if dat.shape.getLastD 0 < (wavelets.headD []).length then
        .error .insufficientDataError
      else
        let eegdat := reshapeTo2D dat
        match fconv_multi wavelets eegdat "same" true with
        | none => .error .invalidModeError
        | some wavCoef =>
          ppTail to_return wavCoef (insertAt freq_axis freqs.length dat.shape)

/-- Collect a list of optional values; `none` as soon as one is `none`
(models the first numpy exception aborting the loop). -/
def optionAll : List (Option α) → Option (List α)
  | [] => some []
  | none :: _ => none
  | some a :: rest => (optionAll rest).map (a :: ·)

/-- `wavCoef[mask] = vals`: numpy boolean-mask assignment — positions whose
mask entry is true receive the successive rows of `vals`, the rest keep
their current row. -/
def maskedAssign : List Bool → List α → List α → List α
  | _, [], _ => []
  | [], init, _ => init
  | b :: ms, x :: xs, vals =>
    if b then vals.headD x :: maskedAssign ms xs vals.tail
    else x :: maskedAssign ms xs vals

/-- `numpy.convolve(a, v, 'same')`: the full linear convolution
`c_k = sum_j a_j v_(k-j)` cropped to the middle `max(M,N)` entries (front
offset `(min(M,N)-1)/2`).  numpy promotes both inputs with `ndmin=1`, so a
0-d scalar is accepted as a length-1 array (its flat data), but a rank-2 or
deeper second argument raises the "object too deep for desired array"
ValueError, and an empty input also raises; both failures are modelled by
`none`. -/
def npConvolveSame (a : List ℂ) (v : Tensor ℂ) : Option (List ℂ) :=
  if v.shape.length ≤ 1 ∧ a ≠ [] ∧ v.data ≠ [] then
    let full := (List.range (a.length + v.data.length - 1)).map fun k =>
      ((a.zip (List.range a.length)).map fun p =>
        (if p.2 ≤ k then p.1 * v.data.getD (k - p.2) 0 else 0)).sum
    some ((full.drop ((min a.length v.data.length - 1) / 2)).take
      (max a.length v.data.length))
  else none

/-- Iterating a numpy array (`for ev, evDat in enumerate(dat)`) yields its
subarrays along the first axis. -/
def subTensors (t : Tensor ℂ) : List (Tensor ℂ) :=
  match t.shape with
  | [] => []
  | s0 :: rest =>
    (List.range s0).map fun ev =>
      ⟨rest, (t.data.drop (ev * shapeProd rest)).take (shapeProd rest)⟩

/-- The coefficient-matrix assembly of `phase_pow_multi2` (source lines
490–509): allocate an `(nEvents*nFreqs) × T` matrix, write the FFT-group
`fconv_multi` result at the rows whose frequency is FFT-masked
(`wavCoef[fconv_ind] = ...` with `fconv_ind = repeat(fft_ind, nEvents)`),
then write the per-row direct convolutions of the direct-group wavelets
with the subarrays of `dat` at the complementary rows.  (`N.empty` is
modelled as zero-filled; every row is overwritten on well-formed input.
The IndexError numpy raises when the direct loop over the raw `dat` yields
more subarrays than allocated rows — e.g. a rank-1 signal — is not
modelled; theorems about this assembly are stated on inputs where the
counts agree.) -/
def splitWavCoef (fft_wavelets reg_wavelets : List (List ℂ)) (fft_ind : List Bool)
    (dat : Tensor ℂ) (eegdat : List (List ℂ)) (nFreqs : ℕ) :
    Option (List (List ℂ)) :=
  let nEvents := eegdat.length
  let timeLen := (eegdat.headD []).length
  let init := List.replicate (nEvents * nFreqs) (List.replicate timeLen (0 : ℂ))
  let fconv_ind := (fft_ind.map (fun b => List.replicate nEvents b)).flatten
  let step1 :=
    if 0 < (fft_wavelets.headD []).length then
      (fconv_multi fft_wavelets eegdat "same" true).map (maskedAssign fconv_ind init)
    else some init
  let conv_ind := (fft_ind.map (fun b => List.replicate nEvents (!b))).flatten
  let regRows := optionAll ((reg_wavelets.map
    (fun w => (subTensors dat).map (npConvolveSame w))).flatten)
  match step1, regRows with
  | some m1, some rows => some (maskedAssign conv_ind m1 rows)
  | _, _ => none

/-- `phase_pow_multi2(freqs, dat, samplerate, widths, fft_thresh, to_return,
time_axis=-1, freq_axis)` (source lines 427–542): validate `to_return`,
build the split bank, fail with `InsufficientDataError` when either group
has a wavelet longer than the data's time length, assemble the coefficient
matrix from both convolution paths, and extract power/phase. -/
def phase_pow_multi2 (freqs : List ℝ) (dat : Tensor ℂ) (samplerate : ℝ)
    (widths : List ℝ) (fft_thresh : ℝ) (to_return : String) (freq_axis : ℕ)
    (sampling_window : ℝ) (complete : Bool) : Except WvError PPResult :=
  if to_return ≠ "both" ∧ to_return ≠ "power" ∧ to_return ≠ "phase" then
    .error .invalidModeError
  else
    match morlet_multi2 freqs widths samplerate fft_thresh sampling_window complete with
    | .error e => .error e
    | .ok (fft_wavelets, reg_wavelets, fft_ind) =>
      if dat.shape.getLastD 0 < (fft_wavelets.headD []).length ∨
         (reg_wavelets ≠ [] ∧
           dat.shape.getLastD 0 < (reg_wavelets.map List.length).foldl max 0) then
        .error .insufficientDataError
      else
        let eegdat := reshapeTo2D dat
        match splitWavCoef fft_wavelets reg_wavelets fft_ind dat eegdat freqs.length with
        | none => .error .depthError
        | some wavCoef =>
          ppTail to_return wavCoef (insertAt freq_axis freqs.length dat.shape)

/-! ## Basic length lemmas -/

theorem linspace_length (a b : ℝ) (m : ℕ) : (linspace a b m).length = m := by
  unfold linspace
  split <;> simp_all

theorem morlet_wavelet_length (m : ℕ) (w s : ℝ) (c : Bool) :
    (morlet_wavelet m w s c).length = m := by
  simp [morlet_wavelet, linspace_length]

theorem fftn_length (x : List ℂ) (n : ℕ) : (fftn x n).length = n := by
  simp [fftn]

theorem ifftn_length (y : List ℂ) : (ifftn y).length = y.length := by
  simp [ifftn]

theorem normalizeRow_length (r : ℝ) (row : List ℂ) :
    (normalizeRow r row).length = row.length := by
  simp [normalizeRow]

theorem centered_length {α : Type} (row : List α) (m : ℕ) (h : m ≤ row.length) :
    (centered row m).length = m := by
  simp only [centered, List.length_take, List.length_drop]
  omega

theorem flatten_map_replicate_length {α : Type} (k : ℕ) (l : List α) :
    ((l.map (List.replicate k)).flatten).length = l.length * k := by
  induction l with
  | nil => simp
  | cons a t ih => simp [ih, Nat.succ_mul, Nat.add_comm]

theorem flatten_replicate_length {α : Type} (n : ℕ) (l : List α) :
    ((List.replicate n l).flatten).length = n * l.length := by
  induction n with
  | zero => simp
  | succ k ih => simp [ih, Nat.succ_mul, Nat.add_comm]

/-! ## Indexing lemmas for the repeat/vstack row blocks -/

theorem getElem_flatten_map_replicate {α : Type} (k : ℕ) (l : List α) (i : ℕ)
    (hk : 0 < k) (h : i < l.length * k)
    (hfl : i < ((l.map (List.replicate k)).flatten).length)
    (hquot : i / k < l.length) :
    ((l.map (List.replicate k)).flatten)[i] = l[i / k] := by
  induction l generalizing i with
  | nil => simp at h
  | cons a t ih =>
    by_cases hik : i < k
    · simp only [List.map_cons, List.flatten_cons]
      rw [List.getElem_append_left (by simpa using hik)]
      simp [Nat.div_eq_of_lt hik]
    · have hk' : k ≤ i := Nat.le_of_not_lt hik
      obtain ⟨j, rfl⟩ : ∃ j, i = j + k := ⟨i - k, (Nat.sub_add_cancel hk').symm⟩
      have hj : j < t.length * k := by
        have := h; simp [Nat.succ_mul] at this ⊢; omega
      simp only [List.map_cons, List.flatten_cons]
      rw [List.getElem_append_right (by simpa using hk')]
      have hdiv : (j + k) / k = j / k + 1 := Nat.add_div_right _ hk
      simp only [List.length_replicate, Nat.add_sub_cancel, hdiv, List.getElem_cons_succ]
      exact ih j hj (by rw [flatten_map_replicate_length]; exact hj)
        (by rwa [Nat.div_lt_iff_lt_mul hk])

theorem getElem_flatten_replicate {α : Type} (n : ℕ) (l : List α) (i : ℕ)
    (h : i < n * l.length)
    (hfl : i < ((List.replicate n l).flatten).length)
    (hmod : i % l.length < l.length) :
    ((List.replicate n l).flatten)[i] = l[i % l.length] := by
  have hl : 0 < l.length := by by_contra hl; push_neg at hl; interval_cases l.length <;> omega
  induction n generalizing i with
  | zero => simp at h
  | succ m ih =>
    by_cases hik : i < l.length
    · simp only [List.replicate_succ, List.flatten_cons]
      rw [List.getElem_append_left hik]
      congr 1
      exact (Nat.mod_eq_of_lt hik).symm
    · have hk' : l.length ≤ i := Nat.le_of_not_lt hik
      obtain ⟨j, rfl⟩ : ∃ j, i = j + l.length := ⟨i - l.length, (Nat.sub_add_cancel hk').symm⟩
      have hj : j < m * l.length := by rw [Nat.succ_mul] at h; omega
      simp only [List.replicate_succ, List.flatten_cons]
      rw [List.getElem_append_right hk']
      simp only [Nat.add_sub_cancel, Nat.add_mod_right]
      exact ih j hj (by rw [flatten_replicate_length]; exact hj) (Nat.mod_lt _ hl)

/-! ## C4: output shape of fconv_multi -/

theorem fconv_actual_le_size (a : ℕ) : a ≤ 2 ^ nextPow2 a :=
  Nat.le_pow_clog (by norm_num) a

theorem fconvRows_length (in1 in2 : List (List ℂ)) :
    (fconvRows in1 in2).length = in1.length * in2.length := by
  simp only [fconvRows, List.length_map, List.length_zipWith,
    flatten_map_replicate_length, flatten_replicate_length]
  simp

theorem fconvRows_getElem (in1 in2 : List (List ℂ)) (i : ℕ)
    (hn2 : 0 < in2.length) (h : i < in1.length * in2.length)
    (hfc : i < (fconvRows in1 in2).length)
    (hdiv : i / in2.length < in1.length)
    (hmod : i % in2.length < in2.length) :
    (fconvRows in1 in2)[i] =
      (ifftn (List.zipWith (· * ·)
        (fftn (in1[i / in2.length])
          (2 ^ nextPow2 ((in1.headD []).length + (in2.headD []).length - 1)))
        (fftn (in2[i % in2.length])
          (2 ^ nextPow2 ((in1.headD []).length + (in2.headD []).length - 1))))).take
        ((in1.headD []).length + (in2.headD []).length - 1) := by
  have h1 : i < (in1.map (fun r =>
      fftn r (2 ^ nextPow2 ((in1.headD []).length + (in2.headD []).length - 1)))).length
      * in2.length := by simpa using h
  have h2 : i < in1.length * (in2.map (fun r =>
      fftn r (2 ^ nextPow2 ((in1.headD []).length + (in2.headD []).length - 1)))).length := by
    simpa using h
  simp only [fconvRows, List.getElem_map, List.getElem_zipWith]
  rw [getElem_flatten_map_replicate _ _ _ (by simpa using hn2) h1
      (by rw [flatten_map_replicate_length]; exact h1) (by simpa using hdiv),
    getElem_flatten_replicate _ _ _ h2
      (by rw [flatten_replicate_length]; exact h2) (by simpa using hmod)]
  simp

theorem fconvRows_row_length (in1 in2 : List (List ℂ)) (r : List ℂ)
    (hr : r ∈ fconvRows in1 in2) :
    r.length = (in1.headD []).length + (in2.headD []).length - 1 := by
  obtain ⟨i, hi, rfl⟩ := List.mem_iff_getElem.1 hr
  have hi' : i < in1.length * in2.length := by rwa [fconvRows_length] at hi
  have hn2 : 0 < in2.length := by
    rcases Nat.eq_zero_or_pos in2.length with h0 | h0
    · rw [h0, Nat.mul_zero] at hi'; omega
    · exact h0
  rw [fconvRows_getElem in1 in2 i hn2 hi' (by rw [fconvRows_length]; exact hi')
    (by rwa [Nat.div_lt_iff_lt_mul hn2]) (Nat.mod_lt _ hn2)]
  simp only [List.length_take, ifftn_length, List.length_zipWith, fftn_length]
  simp [Nat.min_eq_left (fconv_actual_le_size _)]

/-- C4: for 2-D inputs of shapes `num1 × s1` and `num2 × s2`, `fconv_multi`
returns a matrix with `num1*num2` rows, each of length `s1+s2-1` in mode
`full`, `max s1 s2` in mode `same`, and `|s1-s2|+1` in mode `valid`. -/
theorem fconv_multi_shape (in1 in2 : List (List ℂ)) (mode : String) (cr : Bool)
    (s1 s2 : ℕ) (hn1 : in1 ≠ []) (hn2 : in2 ≠ [])
    (h1 : ∀ r ∈ in1, r.length = s1) (h2 : ∀ r ∈ in2, r.length = s2)
    (hs1 : 0 < s1) (hs2 : 0 < s2)
    (hm : mode = "full" ∨ mode = "same" ∨ mode = "valid") :
    ∃ out, fconv_multi in1 in2 mode cr = some out ∧
      out.length = in1.length * in2.length ∧
      ∀ r ∈ out, r.length =
        if mode = "full" then s1 + s2 - 1
        else if mode = "same" then max s1 s2
        else max s1 s2 - min s1 s2 + 1 := by
  have hd1 : (in1.headD []).length = s1 := by
    cases in1 with
    | nil => exact absurd rfl hn1
    | cons a t => exact h1 a (List.mem_cons_self a t)
  have hd2 : (in2.headD []).length = s2 := by
    cases in2 with
    | nil => exact absurd rfl hn2
    | cons a t => exact h2 a (List.mem_cons_self a t)
  have hretlen : ∀ (c : Bool), ((if c then fconvRows in1 in2
      else (fconvRows in1 in2).map (fun r => r.map (fun z => Complex.ofReal z.re))).length)
      = in1.length * in2.length := by
    intro c; cases c <;> simp [fconvRows_length]
  have hretrow : ∀ (c : Bool), ∀ r ∈ (if c then fconvRows in1 in2
      else (fconvRows in1 in2).map (fun r => r.map (fun z => Complex.ofReal z.re))),
      r.length = s1 + s2 - 1 := by
    intro c r hr
    cases c with
    | false =>
      simp only [if_neg Bool.false_ne_true, List.mem_map] at hr
      obtain ⟨r', hr', rfl⟩ := hr
      rw [List.length_map, fconvRows_row_length in1 in2 r' hr', hd1, hd2]
    | true =>
      simp only [if_pos rfl] at hr
      rw [fconvRows_row_length in1 in2 r hr, hd1, hd2]
  rcases hm with hm | hm | hm <;> subst hm
  · have hff : ((("full" : String) = "full")) = True := eq_true rfl
    simp only [fconv_multi, hff, if_true]
    refine ⟨_, rfl, hretlen cr, ?_⟩
    intro r hr
    exact hretrow cr r hr
  · have hsf : ((("same" : String) = "full")) = False := eq_false (by decide)
    have hss : ((("same" : String) = "same")) = True := eq_true rfl
    simp only [fconv_multi, hsf, hss, if_true, if_false]
    refine ⟨_, rfl, by rw [List.length_map]; exact hretlen cr, ?_⟩
    intro r hr
    simp only [List.mem_map] at hr
    obtain ⟨r', hr', rfl⟩ := hr
    rw [hd1, hd2]
    have hle : (if s1 > s2 then s1 else s2) ≤ r'.length := by
      rw [hretrow cr r' hr']; split <;> omega
    rw [centered_length _ _ hle]
    split <;> omega
  · have hvf : ((("valid" : String) = "full")) = False := eq_false (by decide)
    have hvs : ((("valid" : String) = "same")) = False := eq_false (by decide)
    have hvv : ((("valid" : String) = "valid")) = True := eq_true rfl
    simp only [fconv_multi, hvf, hvs, hvv, if_true, if_false]
    refine ⟨_, rfl, by rw [List.length_map]; exact hretlen cr, ?_⟩
    intro r hr
    simp only [List.mem_map] at hr
    obtain ⟨r', hr', rfl⟩ := hr
    rw [hd1, hd2]
    have hle : max s1 s2 - min s1 s2 + 1 ≤ r'.length := by
      rw [hretrow cr r' hr']; omega
    rw [centered_length _ _ hle]

/-- Witness for C4: a concrete `1×1` by `1×2` instance in mode `same`. -/
theorem fconv_multi_shape_witness :
    ∃ out, fconv_multi [[(1 : ℂ)]] [[(1 : ℂ), 2]] "same" true = some out ∧
      out.length = 1 * 1 ∧
      ∀ r ∈ out, r.length =
        if ("same" : String) = "full" then 1 + 2 - 1
        else if ("same" : String) = "same" then max 1 2
        else max 1 2 - min 1 2 + 1 := by
  have h := fconv_multi_shape [[(1 : ℂ)]] [[(1 : ℂ), 2]] "same" true 1 2
    (by simp) (by simp) (by simp) (by simp) (by norm_num) (by norm_num)
    (Or.inr (Or.inl rfl))
  simpa using h

/-! ## C3: width broadcasting -/

/-- `true` iff an `Except` computation succeeded. -/
def exceptOk {ε α : Type} : Except ε α → Bool
  | .ok _ => true
  | .error _ => false

theorem bankSt_length (freqs widths : List ℝ) :
    (bankSt freqs widths).length =
      min (broadcastWidths widths freqs.length).length freqs.length := by
  simp [bankSt]

/-- On a well-broadcast nonempty bank `morlet_multi` returns its wavelet
matrix. -/
theorem morlet_multi_eq_ok (freqs widths : List ℝ)
    (samplerate sampling_window : ℝ) (complete : Bool)
    (hl : (broadcastWidths widths freqs.length).length = freqs.length)
    (hne : bankSt freqs widths ≠ []) :
    morlet_multi freqs widths samplerate sampling_window complete
      = .ok (uniformBank freqs widths samplerate sampling_window complete) := by
  obtain ⟨s0, srest, hcons⟩ := List.exists_cons_of_ne_nil hne
  simp only [morlet_multi]
  rw [if_neg (by simp [hl]), hcons]

/-- C3: when the width count divides the frequency count the widths are
broadcast in contiguous blocks — wavelet `i` receives width
`widths[i / (len freqs / len widths)]` (for a single width this replicates
it to every frequency, for equal lengths it pairs elementwise) and both
builders succeed; in every other case both builders fail with the
configuration error before any wavelet is generated. -/
theorem morlet_width_broadcast (freqs widths : List ℝ)
    (samplerate fft_thresh sampling_window : ℝ) (complete : Bool)
    (hn : freqs ≠ []) (hk : widths ≠ []) :
    (∀ (hd : widths.length ∣ freqs.length),
      (broadcastWidths widths freqs.length).length = freqs.length ∧
      (∀ (i : ℕ) (hi : i < freqs.length),
        (broadcastWidths widths freqs.length).get ⟨i, by
          rw [broadcastWidths, flatten_map_replicate_length, Nat.mul_div_cancel' hd]
          exact hi⟩ =
        widths.get ⟨i / (freqs.length / widths.length), by
          have hk0 : 0 < widths.length := List.length_pos.2 hk
          have hn0 : 0 < freqs.length := List.length_pos.2 hn
          have hm0 : 0 < freqs.length / widths.length :=
            Nat.div_pos (Nat.le_of_dvd hn0 hd) hk0
          rw [Nat.div_lt_iff_lt_mul hm0, Nat.mul_div_cancel' hd]
          exact hi⟩) ∧
      exceptOk (morlet_multi freqs widths samplerate sampling_window complete) = true ∧
      exceptOk (morlet_multi2 freqs widths samplerate fft_thresh sampling_window complete)
        = true) ∧
    (¬ widths.length ∣ freqs.length →
      morlet_multi freqs widths samplerate sampling_window complete
        = .error .configurationError ∧
      morlet_multi2 freqs widths samplerate fft_thresh sampling_window complete
        = .error .configurationError) := by
  have hk0 : 0 < widths.length := List.length_pos.2 hk
  have hn0 : 0 < freqs.length := List.length_pos.2 hn
  constructor
  · intro hd
    have hm0 : 0 < freqs.length / widths.length :=
      Nat.div_pos (Nat.le_of_dvd hn0 hd) hk0
    have hlen : (broadcastWidths widths freqs.length).length = freqs.length := by
      rw [broadcastWidths, flatten_map_replicate_length, Nat.mul_div_cancel' hd]
    refine ⟨hlen, ?_, ?_, ?_⟩
    · intro i hi
      exact getElem_flatten_map_replicate (freqs.length / widths.length) widths i hm0
        (by rw [Nat.mul_div_cancel' hd]; exact hi)
        (by rw [flatten_map_replicate_length, Nat.mul_div_cancel' hd]; exact hi)
        (by rw [Nat.div_lt_iff_lt_mul hm0, Nat.mul_div_cancel' hd]; exact hi)
    · have hst : bankSt freqs widths ≠ [] := by
        rw [← List.length_pos, bankSt_length, hlen]
        omega
      rw [morlet_multi_eq_ok freqs widths samplerate sampling_window complete hlen hst]
      rfl
    · simp only [morlet_multi2]
      rw [if_neg (by simp [hlen])]
      rfl
  · intro hd
    have hne : (broadcastWidths widths freqs.length).length ≠ freqs.length := by
      rw [broadcastWidths, flatten_map_replicate_length]
      intro hEq
      exact hd ⟨freqs.length / widths.length, hEq.symm⟩
    constructor
    · simp only [morlet_multi]
      rw [if_pos hne]
    · simp only [morlet_multi2]
      rw [if_pos hne]

/-- Witness for C3: `freqs=[10,20,30]` with `widths=[5,6,7]` succeeds while
the length-4/length-3 combination raises the configuration error. -/
theorem morlet_width_broadcast_witness :
    morlet_multi [10, 20, 30] [5, 6, 7] 200 7 true ≠ .error .configurationError ∧
    morlet_multi [(10 : ℝ), 20, 30, 40] [5, 6, 7] 200 7 true
      = .error .configurationError := by
  constructor
  · have hb :=
      ((morlet_width_broadcast [10, 20, 30] [5, 6, 7] 200 90 7 true
        (by simp) (by simp)).1 (by norm_num)).2.2.1
    intro hcontra
    rw [hcontra] at hb
    exact Bool.noConfusion hb
  · exact ((morlet_width_broadcast [10, 20, 30, 40] [5, 6, 7] 200 90 7 true
      (by simp) (by simp)).2 (by norm_num)).1

/-! ## C9: shared sample count of the uniform bank -/

theorem exists_of_mem_zipWith {α β γ : Type} {f : α → β → γ} {l₁ : List α}
    {l₂ : List β} {c : γ} (h : c ∈ List.zipWith f l₁ l₂) :
    ∃ a ∈ l₁, ∃ b ∈ l₂, c = f a b := by
  induction l₁ generalizing l₂ with
  | nil => simp at h
  | cons a t ih =>
    cases l₂ with
    | nil => simp at h
    | cons b t2 =>
      rw [List.zipWith_cons_cons] at h
      rcases List.mem_cons.1 h with h | h
      · exact ⟨a, List.mem_cons_self a t, b, List.mem_cons_self b t2, h⟩
      · obtain ⟨a', ha', b', hb', rfl⟩ := ih h
        exact ⟨a', List.mem_cons_of_mem _ ha', b', List.mem_cons_of_mem _ hb', rfl⟩

/-- The uniform bank is rectangular: one row per frequency, each at the
shared sample count. -/
theorem uniformBank_shape (freqs widths : List ℝ)
    (samplerate sampling_window : ℝ) (complete : Bool)
    (hl : (broadcastWidths widths freqs.length).length = freqs.length) :
    (uniformBank freqs widths samplerate sampling_window complete).length = freqs.length ∧
    ∀ row ∈ uniformBank freqs widths samplerate sampling_window complete,
      row.length = sharedSamples freqs widths samplerate sampling_window := by
  constructor
  · simp [uniformBank, hl]
  · intro row hrow
    simp only [uniformBank, List.mem_map] at hrow
    obtain ⟨r', hr', rfl⟩ := hrow
    obtain ⟨a, _, b, _, rfl⟩ := exists_of_mem_zipWith hr'
    rw [normalizeRow_length, morlet_wavelet_length]

/-- A successful `morlet_multi` bank has one row per frequency and every row
at the shared sample count. -/
theorem morlet_multi_ok_shape (freqs widths : List ℝ)
    (samplerate sampling_window : ℝ) (complete : Bool) (bank : List (List ℂ))
    (hok : morlet_multi freqs widths samplerate sampling_window complete = .ok bank) :
    bank.length = freqs.length ∧
    ∀ row ∈ bank, row.length = sharedSamples freqs widths samplerate sampling_window := by
  simp only [morlet_multi] at hok
  by_cases hcond : (broadcastWidths widths freqs.length).length ≠ freqs.length
  · rw [if_pos hcond] at hok
    exact absurd hok (by simp)
  · rw [if_neg hcond] at hok
    push_neg at hcond
    cases hbs : bankSt freqs widths with
    | nil =>
      rw [hbs] at hok
      exact absurd hok (by simp)
    | cons s0 srest =>
      rw [hbs] at hok
      injection hok with h
      rw [← h]
      exact uniformBank_shape freqs widths samplerate sampling_window complete hcond

/-- A successful `morlet_multi` call implies the broadcast check passed and
the bank description was nonempty. -/
theorem morlet_multi_ok_inv (freqs widths : List ℝ)
    (samplerate sampling_window : ℝ) (complete : Bool) (bank : List (List ℂ))
    (hok : morlet_multi freqs widths samplerate sampling_window complete = .ok bank) :
    (broadcastWidths widths freqs.length).length = freqs.length ∧
    bankSt freqs widths ≠ [] := by
  simp only [morlet_multi] at hok
  by_cases hcond : (broadcastWidths widths freqs.length).length ≠ freqs.length
  · rw [if_pos hcond] at hok
    exact absurd hok (by simp)
  · rw [if_neg hcond] at hok
    push_neg at hcond
    refine ⟨hcond, ?_⟩
    cases hbs : bankSt freqs widths with
    | nil =>
      rw [hbs] at hok
      exact absurd hok (by simp)
    | cons s0 srest => simp

theorem sharedSamples_ten_five : sharedSamples [10] [5] 200 7 = 112 := by
  have hb : bankSt [10] [5] = [5 / (2 * π * 10)] := by
    simp [bankSt, broadcastWidths]
  have harg : (5 : ℝ) / (2 * π * 10) * 200 * 7 = 350 / π := by
    have hpi : (π : ℝ) ≠ 0 := Real.pi_ne_zero
    field_simp
    ring
  rw [sharedSamples, hb]
  simp only [listMaxD, List.foldl_nil]
  rw [harg, Nat.ceil_eq_iff (by norm_num)]
  constructor
  · push_cast
    norm_num
    rw [lt_div_iff Real.pi_pos]
    nlinarith [Real.pi_lt_315]
  · push_cast
    rw [div_le_iff Real.pi_pos]
    nlinarith [Real.pi_gt_314]

/-- C9: every wavelet of the uniform bank has the shared sample count
`ceil(max(widths/(2*pi*freqs)) * samplerate * sampling_window)`
(`sharedSamples`, dictated by the most time-diffuse wavelet), and
`morlet_multi(10, 5, 200)` with the default window 7 has shape `(1, 112)`. -/
theorem morlet_multi_bank_shape (freqs widths : List ℝ)
    (samplerate sampling_window : ℝ) (complete : Bool) (bank : List (List ℂ))
    (hok : morlet_multi freqs widths samplerate sampling_window complete = .ok bank) :
    (bank.length = freqs.length ∧
     ∀ row ∈ bank, row.length = sharedSamples freqs widths samplerate sampling_window) ∧
    (∃ b, morlet_multi [10] [5] 200 7 true = .ok b ∧
      b.length = 1 ∧ ∀ row ∈ b, row.length = 112) := by
  constructor
  · exact morlet_multi_ok_shape freqs widths samplerate sampling_window complete bank hok
  · have hl : (broadcastWidths [5] ([10] : List ℝ).length).length
        = ([10] : List ℝ).length := by
      simp [broadcastWidths]
    have hne : bankSt [10] [5] ≠ [] := by
      simp [bankSt, broadcastWidths]
    refine ⟨_, morlet_multi_eq_ok [10] [5] 200 7 true hl hne, ?_, ?_⟩
    · simpa using (uniformBank_shape [10] [5] 200 7 true hl).1
    · intro row hrow
      rw [(uniformBank_shape [10] [5] 200 7 true hl).2 row hrow, sharedSamples_ten_five]

/-- Witness for C9 at the concrete bank `morlet_multi(10, 5, 200)`. -/
theorem morlet_multi_bank_shape_witness :
    ∃ b, morlet_multi [10] [5] 200 7 true = .ok b ∧ b.length = 1 ∧
      ∀ row ∈ b, row.length = 112 := by
  have hl : (broadcastWidths [5] ([10] : List ℝ).length).length
      = ([10] : List ℝ).length := by
    simp [broadcastWidths]
  have hne : bankSt [10] [5] ≠ [] := by
    simp [bankSt, broadcastWidths]
  exact (morlet_multi_bank_shape [10] [5] 200 7 true _
    (morlet_multi_eq_ok [10] [5] 200 7 true hl hne)).2

/-! ## C7: insufficient data -/

/-- C7: whenever the bank's shared sample count exceeds the signal's length
along the time axis, `phase_pow_multi` fails with the insufficient-data
error — the whole call returns the error, so no convolution result is ever
produced. -/
theorem phase_pow_multi_insufficient (freqs widths : List ℝ) (dat : Tensor ℂ)
    (samplerate sampling_window : ℝ) (freq_axis : ℕ) (complete : Bool)
    (to_return : String)
    (hret : to_return = "both" ∨ to_return = "power" ∨ to_return = "phase")
    (hl : (broadcastWidths widths freqs.length).length = freqs.length)
    (hne : bankSt freqs widths ≠ [])
    (hshort : dat.shape.getLastD 0 <
      sharedSamples freqs widths samplerate sampling_window) :
    phase_pow_multi freqs dat samplerate widths to_return freq_axis
      sampling_window complete = .error .insufficientDataError := by
  obtain ⟨bank, hokb⟩ : ∃ b, morlet_multi freqs widths samplerate sampling_window complete
      = .ok b :=
    ⟨_, morlet_multi_eq_ok freqs widths samplerate sampling_window complete hl hne⟩
  obtain ⟨hblen, hrows⟩ := morlet_multi_ok_shape freqs widths samplerate sampling_window
    complete bank hokb
  have hn0 : 0 < freqs.length := by
    rw [← List.length_pos, bankSt_length, hl] at hne
    omega
  have hbne : bank ≠ [] := by
    rw [← List.length_pos, hblen]
    exact hn0
  have hmem : bank.headD [] ∈ bank := by
    cases bank with
    | nil => exact absurd rfl hbne
    | cons a t => exact List.mem_cons_self a t
  have hhead : ((bank.headD []).length)
      = sharedSamples freqs widths samplerate sampling_window :=
    hrows _ hmem
  simp only [phase_pow_multi]
  rw [if_neg (by rcases hret with h | h | h <;> simp [h])]
  simp only [hokb]
  rw [if_pos (by rw [hhead]; exact hshort)]

/-- Witness for C7: samplerate 200 Hz, a 1 Hz wavelet and a signal of only
100 samples. -/
theorem phase_pow_multi_insufficient_witness :
    phase_pow_multi [1] ⟨[100], List.replicate 100 0⟩ 200 [5] "both" 0 7 true
      = .error .insufficientDataError := by
  apply phase_pow_multi_insufficient
  · exact Or.inl rfl
  · simp [broadcastWidths]
  · simp [bankSt, broadcastWidths]
  · show (100 : ℕ) < sharedSamples [1] [5] 200 7
    have hb : bankSt [1] [5] = [5 / (2 * π * 1)] := by
      simp [bankSt, broadcastWidths]
    have harg : (5 : ℝ) / (2 * π * 1) * 200 * 7 = 3500 / π := by
      have hpi : (π : ℝ) ≠ 0 := Real.pi_ne_zero
      field_simp
      ring
    rw [sharedSamples, hb]
    simp only [listMaxD, List.foldl_nil]
    rw [harg, Nat.lt_ceil]
    push_cast
    rw [lt_div_iff Real.pi_pos]
    nlinarith [Real.pi_lt_315]

/-! ## C8: unrecognized mode strings -/

/-- C8 (code bug): an unrecognized `to_return` is rejected up front with the
invalid-mode error, but `fconv_multi` with an unrecognized convolution mode
does not raise — the Python function falls off the end and returns `None`
(modelled as `none`) after performing all the FFT work. -/
theorem invalid_mode_behavior :
    phase_pow_multi [1] ⟨[4], [1, 0, 0, 0]⟩ 200 [5] "bogus" 0 7 true
      = .error .invalidModeError ∧
    fconv_multi [[1]] [[1]] "bogus" true = none := by
  constructor
  · simp only [phase_pow_multi]
    rw [if_pos ⟨by decide, by decide, by decide⟩]
  · simp only [fconv_multi]
    rw [if_neg (by decide), if_neg (by decide), if_neg (by decide)]

/-! ## C2: unit energy of every wavelet -/

theorem le_foldl_max {α : Type} [LinearOrder α] (x : α) (xs : List α) :
    x ≤ xs.foldl max x := by
  induction xs generalizing x with
  | nil => exact le_refl x
  | cons y ys ih =>
    rw [List.foldl_cons]
    exact le_trans (le_max_left x y) (ih (max x y))

theorem mem_le_foldl_max {α : Type} [LinearOrder α] {n : α} {l : List α} (a : α)
    (h : n ∈ l) : n ≤ l.foldl max a := by
  induction l generalizing a with
  | nil => simp at h
  | cons x xs ih =>
    rw [List.foldl_cons]
    rcases List.mem_cons.1 h with h | h
    · subst h
      exact le_trans (le_max_right a n) (le_foldl_max _ _)
    · exact ih _ h

theorem listMaxD_pos (l : List ℝ) (hne : l ≠ []) (hpos : ∀ x ∈ l, 0 < x) :
    0 < listMaxD l := by
  cases l with
  | nil => exact absurd rfl hne
  | cons x xs =>
    have hx : 0 < x := hpos x (List.mem_cons_self x xs)
    exact lt_of_lt_of_le hx (le_foldl_max x xs)

theorem maskFilter_cons_true {α : Type} (x : α) (xs : List α) (ms : List Bool) :
    maskFilter (x :: xs) (true :: ms) = x :: maskFilter xs ms := by
  simp [maskFilter]

theorem maskFilter_cons_false {α : Type} (x : α) (xs : List α) (ms : List Bool) :
    maskFilter (x :: xs) (false :: ms) = maskFilter xs ms := by
  simp [maskFilter]

theorem maskFilter_subset {α : Type} {l : List α} {mask : List Bool} {x : α}
    (h : x ∈ maskFilter l mask) : x ∈ l := by
  induction l generalizing mask with
  | nil => simp [maskFilter] at h
  | cons a t ih =>
    cases mask with
    | nil => simp [maskFilter] at h
    | cons b ms =>
      cases b with
      | true =>
        rw [maskFilter_cons_true] at h
        rcases List.mem_cons.1 h with h | h
        · exact h ▸ List.mem_cons_self a t
        · exact List.mem_cons_of_mem _ (ih h)
      | false =>
        rw [maskFilter_cons_false] at h
        exact List.mem_cons_of_mem _ (ih h)

theorem maskFilter_ne_nil {α : Type} (l : List α) (mask : List Bool)
    (hlen : mask.length = l.length) (h : mask.any id = true) :
    maskFilter l mask ≠ [] := by
  induction mask generalizing l with
  | nil => simp at h
  | cons b ms ih =>
    cases l with
    | nil => simp at hlen
    | cons x xs =>
      cases b with
      | true =>
        rw [maskFilter_cons_true]
        exact List.cons_ne_nil _ _
      | false =>
        rw [maskFilter_cons_false]
        exact ih xs (by simpa using hlen) (by simpa using h)

theorem broadcastWidths_mem {widths : List ℝ} {n : ℕ} {x : ℝ}
    (h : x ∈ broadcastWidths widths n) : x ∈ widths := by
  simp only [broadcastWidths, List.mem_flatten, List.mem_map] at h
  obtain ⟨l, ⟨w, hw, rfl⟩, hx⟩ := h
  rw [List.eq_of_mem_replicate hx]
  exact hw

theorem bankSt_mem_pos {freqs widths : List ℝ}
    (hf : ∀ f ∈ freqs, 0 < f) (hw : ∀ w ∈ widths, 0 < w) :
    ∀ s ∈ bankSt freqs widths, 0 < s := by
  intro s hs
  obtain ⟨w, hw', f, hf', rfl⟩ := exists_of_mem_zipWith hs
  have hwpos := hw _ (broadcastWidths_mem hw')
  have hfpos := hf _ hf'
  positivity

theorem perSamples_pos {freqs widths : List ℝ} {samplerate sampling_window : ℝ}
    (hrate : 0 < samplerate) (hwin : 0 < sampling_window)
    (hf : ∀ f ∈ freqs, 0 < f) (hw : ∀ w ∈ widths, 0 < w) :
    ∀ n ∈ perSamples freqs widths samplerate sampling_window, 0 < n := by
  intro n hn
  simp only [perSamples, List.mem_map] at hn
  obtain ⟨s, hs, rfl⟩ := hn
  have hspos := bankSt_mem_pos hf hw s hs
  exact Nat.ceil_pos.2 (by positivity)

theorem sharedSamples_pos {freqs widths : List ℝ} {samplerate sampling_window : ℝ}
    (hrate : 0 < samplerate) (hwin : 0 < sampling_window)
    (hf : ∀ f ∈ freqs, 0 < f) (hw : ∀ w ∈ widths, 0 < w)
    (hne : bankSt freqs widths ≠ []) :
    0 < sharedSamples freqs widths samplerate sampling_window := by
  refine Nat.ceil_pos.2 ?_
  have hmax := listMaxD_pos (bankSt freqs widths) hne (bankSt_mem_pos hf hw)
  positivity

theorem morlet_wavelet_mem_ne_zero {m : ℕ} {w s : ℝ} {c : Bool} (hw : 0 < w) :
    ∀ z ∈ morlet_wavelet m w s c, z ≠ 0 := by
  intro z hz
  simp only [morlet_wavelet, List.mem_map] at hz
  obtain ⟨x, hx, rfl⟩ := hz
  have henv : (Real.exp (-(x ^ 2) / 2) * (π : ℝ) ^ (-(1 : ℝ) / 4)) ≠ 0 := by
    have h1 : 0 < Real.exp (-(x ^ 2) / 2) := Real.exp_pos _
    have h2 : (0 : ℝ) < (π : ℝ) ^ (-(1 : ℝ) / 4) :=
      Real.rpow_pos_of_pos Real.pi_pos _
    positivity
  refine mul_ne_zero ?_ (by simpa using henv)
  cases c with
  | false => simpa using Complex.exp_ne_zero _
  | true =>
    simp only [if_true]
    intro hcontra
    rw [sub_eq_zero] at hcontra
    have habs := congrArg Complex.abs hcontra
    rw [Complex.abs_exp, Complex.abs_ofReal] at habs
    have hre : (Complex.I * Complex.ofReal w * Complex.ofReal x).re = 0 := by
      simp [Complex.mul_re]
    rw [hre, Real.exp_zero] at habs
    have hK : Real.exp (-(w ^ 2) / 2) < 1 := by
      rw [Real.exp_lt_one_iff]
      nlinarith
    rw [abs_of_nonneg (le_of_lt (Real.exp_pos _))] at habs
    linarith


theorem rowEnergySum_nonneg (row : List ℂ) : 0 ≤ rowEnergySum row := by
  unfold rowEnergySum
  apply List.sum_nonneg
  intro x hx
  simp only [List.mem_map] at hx
  obtain ⟨z, _, rfl⟩ := hx
  positivity

theorem rowEnergySum_pos (row : List ℂ) (hne : row ≠ [])
    (hz : ∀ z ∈ row, z ≠ 0) : 0 < rowEnergySum row := by
  cases row with
  | nil => exact absurd rfl hne
  | cons z zs =>
    have hzne : Complex.abs z ≠ 0 := by
      simpa [Complex.abs.eq_zero] using hz z (List.mem_cons_self z zs)
    have hzpos : 0 < Complex.abs z ^ 2 := by positivity
    have hrest : 0 ≤ rowEnergySum zs := rowEnergySum_nonneg zs
    unfold rowEnergySum at hrest ⊢
    rw [List.map_cons, List.sum_cons]
    linarith

theorem rowEnergySum_map_div (row : List ℂ) (c : ℂ) :
    rowEnergySum (row.map (fun z => z / c))
      = rowEnergySum row * ((Complex.abs c) ^ 2)⁻¹ := by
  unfold rowEnergySum
  rw [List.map_map]
  have hcomp : ((fun z => Complex.abs z ^ 2) ∘ fun z => z / c)
      = fun z => Complex.abs z ^ 2 * ((Complex.abs c) ^ 2)⁻¹ := by
    funext z
    simp only [Function.comp_apply]
    rw [map_div₀ Complex.abs, div_pow, div_eq_mul_inv]
  rw [hcomp, List.sum_map_mul_right]

/-- Dividing a row with positive energy by its energy norm yields a row of
unit discrete energy. -/
theorem normalizeRow_unit_energy (samplerate : ℝ) (row : List ℂ)
    (hrate : 0 < samplerate) (hS : 0 < rowEnergySum row) :
    rowEnergySum (normalizeRow samplerate row) / samplerate = 1 := by
  have hSne : rowEnergySum row ≠ 0 := ne_of_gt hS
  have hq : (0 : ℝ) ≤ rowEnergySum row / samplerate := by positivity
  simp only [normalizeRow]
  rw [rowEnergySum_map_div, Complex.abs_ofReal,
    abs_of_nonneg (Real.sqrt_nonneg _), Real.sq_sqrt hq]
  field_simp

/-- C2: every row of the uniform bank, of the split bank's FFT group (when
that group is nonempty) and of the split bank's direct group has discrete
energy `sum(|wavelet|^2)/samplerate` exactly 1. -/
theorem wavelet_unit_energy (freqs widths : List ℝ)
    (samplerate fft_thresh sampling_window : ℝ) (complete : Bool)
    (hrate : 0 < samplerate) (hwin : 0 < sampling_window)
    (hf : ∀ f ∈ freqs, 0 < f) (hw : ∀ w ∈ widths, 0 < w)
    (bank fftw regw : List (List ℂ)) (mask : List Bool)
    (hok : morlet_multi freqs widths samplerate sampling_window complete = .ok bank)
    (hok2 : morlet_multi2 freqs widths samplerate fft_thresh sampling_window complete
      = .ok (fftw, regw, mask)) :
    (∀ row ∈ bank, rowEnergySum row / samplerate = 1) ∧
    (mask.any id = true → ∀ row ∈ fftw, rowEnergySum row / samplerate = 1) ∧
    (∀ row ∈ regw, rowEnergySum row / samplerate = 1) := by
  obtain ⟨hl, hne⟩ := morlet_multi_ok_inv freqs widths samplerate sampling_window
    complete bank hok
  have hwB : ∀ w ∈ broadcastWidths widths freqs.length, 0 < w :=
    fun w hw' => hw _ (broadcastWidths_mem hw')
  have hper : ∀ n ∈ perSamples freqs widths samplerate sampling_window, 0 < n :=
    perSamples_pos hrate hwin hf hw
  have hbank : bank = (List.zipWith
      (fun w s => morlet_wavelet (sharedSamples freqs widths samplerate sampling_window)
        w s complete)
      (broadcastWidths widths freqs.length)
      (List.zipWith
        (fun f w => f * ((sharedSamples freqs widths samplerate sampling_window : ℕ) : ℝ)
          / (2 * w * samplerate))
        freqs (broadcastWidths widths freqs.length))).map (normalizeRow samplerate) := by
    have h := (morlet_multi_eq_ok freqs widths samplerate sampling_window complete
      hl hne).symm.trans hok
    injection h with h
    exact h.symm
  simp only [morlet_multi2] at hok2
  rw [if_neg (by simp [hl])] at hok2
  injection hok2 with h2
  rw [Prod.mk.injEq, Prod.mk.injEq] at h2
  obtain ⟨hfftw, hregw, hmask⟩ := h2
  refine ⟨?_, ?_, ?_⟩
  · intro row hrow
    rw [hbank] at hrow
    simp only [List.mem_map] at hrow
    obtain ⟨r', hr', rfl⟩ := hrow
    obtain ⟨w, hwmem, sc, _, rfl⟩ := exists_of_mem_zipWith hr'
    have hwpos := hwB w hwmem
    apply normalizeRow_unit_energy _ _ hrate
    apply rowEnergySum_pos _ _ (morlet_wavelet_mem_ne_zero hwpos)
    rw [← List.length_pos, morlet_wavelet_length]
    exact sharedSamples_pos hrate hwin hf hw hne
  · intro hany row hrow
    rw [← hfftw] at hrow
    rw [← hmask] at hany
    rw [if_pos hany] at hrow
    simp only [List.mem_map] at hrow
    obtain ⟨r', hr', rfl⟩ := hrow
    obtain ⟨w, hwmem, sc, _, rfl⟩ := exists_of_mem_zipWith hr'
    have hwpos := hwB w (maskFilter_subset hwmem)
    apply normalizeRow_unit_energy _ _ hrate
    apply rowEnergySum_pos _ _ (morlet_wavelet_mem_ne_zero hwpos)
    rw [← List.length_pos, morlet_wavelet_length]
    have hmf : maskFilter (perSamples freqs widths samplerate sampling_window)
        (fftMask freqs widths samplerate fft_thresh sampling_window) ≠ [] :=
      maskFilter_ne_nil _ _ (by simp [fftMask]) hany
    obtain ⟨n0, hn0mem⟩ : ∃ n0, n0 ∈ maskFilter
        (perSamples freqs widths samplerate sampling_window)
        (fftMask freqs widths samplerate fft_thresh sampling_window) := by
      cases hmf' : maskFilter (perSamples freqs widths samplerate sampling_window)
          (fftMask freqs widths samplerate fft_thresh sampling_window) with
      | nil => exact absurd hmf' hmf
      | cons a t => exact ⟨a, hmf' ▸ List.mem_cons_self a t⟩
    have hn0pos := hper _ (maskFilter_subset hn0mem)
    have hle := mem_le_foldl_max (0 : ℕ) hn0mem
    omega
  · intro row hrow
    rw [← hregw] at hrow
    simp only [List.mem_map] at hrow
    obtain ⟨r', hr', rfl⟩ := hrow
    obtain ⟨t, ht, rfl⟩ := hr'
    have hmem := List.of_mem_zip ht
    have hmem2 := List.of_mem_zip hmem.2
    have hwpos := hwB _ (maskFilter_subset hmem2.1)
    have hnpos := hper _ (maskFilter_subset hmem2.2)
    apply normalizeRow_unit_energy _ _ hrate
    apply rowEnergySum_pos _ _ (morlet_wavelet_mem_ne_zero hwpos)
    rw [← List.length_pos, morlet_wavelet_length]
    exact hnpos

/-- Witness for C2: a two-frequency bank split across both groups
(`samplerate = π` makes the per-wavelet sample counts exactly 1 and 2, and
threshold 1 puts one wavelet in each group). -/
theorem wavelet_unit_energy_witness :
    ∃ bank fftw regw mask,
      morlet_multi [1, 1] [2, 4] π 1 true = .ok bank ∧
      morlet_multi2 [1, 1] [2, 4] π 1 1 true = .ok (fftw, regw, mask) ∧
      (∀ row ∈ bank, rowEnergySum row / π = 1) ∧
      (mask.any id = true → ∀ row ∈ fftw, rowEnergySum row / π = 1) ∧
      (∀ row ∈ regw, rowEnergySum row / π = 1) := by
  have hl : (broadcastWidths [2, 4] ([1, 1] : List ℝ).length).length
      = ([1, 1] : List ℝ).length := by
    simp [broadcastWidths]
  have hne : bankSt [1, 1] [2, 4] ≠ [] := by
    simp [bankSt, broadcastWidths]
  have hok := morlet_multi_eq_ok [1, 1] [2, 4] π 1 true hl hne
  have hok2ex : ∃ t, morlet_multi2 [1, 1] [2, 4] π 1 1 true = .ok t := by
    simp only [morlet_multi2]
    rw [if_neg (by simp [broadcastWidths])]
    exact ⟨_, rfl⟩
  obtain ⟨⟨fftw, regw, mask⟩, hok2⟩ := hok2ex
  have hfpos : ∀ f ∈ ([1, 1] : List ℝ), 0 < f := by
    intro f hfm
    rcases List.mem_cons.1 hfm with h | h
    · rw [h]; norm_num
    · have : f = 1 := by simpa using h
      rw [this]; norm_num
  have hwpos : ∀ w ∈ ([2, 4] : List ℝ), 0 < w := by
    intro w hwm
    rcases List.mem_cons.1 hwm with h | h
    · rw [h]; norm_num
    · have : w = 4 := by simpa using h
      rw [this]; norm_num
  have h := wavelet_unit_energy [1, 1] [2, 4] π 1 1 true Real.pi_pos one_pos
    hfpos hwpos _ fftw regw mask hok hok2
  exact ⟨_, fftw, regw, mask, hok, hok2, h.1, h.2.1, h.2.2⟩

/-! ## C1: computeSplit vs computeUniform -/

theorem map_eq_replicate_true {α : Type} (p : α → Bool) (l : List α)
    (h : ∀ x ∈ l, p x = true) : l.map p = List.replicate l.length true := by
  induction l with
  | nil => simp
  | cons a t ih =>
    rw [List.map_cons, List.length_cons, List.replicate_succ,
      h a (List.mem_cons_self a t), ih (fun x hx => h x (List.mem_cons_of_mem _ hx))]

theorem maskFilter_all_true {α : Type} (l : List α) (k : ℕ) (hk : l.length ≤ k) :
    maskFilter l (List.replicate k true) = l := by
  induction l generalizing k with
  | nil => simp [maskFilter]
  | cons a t ih =>
    cases k with
    | zero => simp at hk
    | succ m =>
      rw [List.replicate_succ, maskFilter_cons_true, ih m (by simpa using hk)]

theorem maskFilter_all_false {α : Type} (l : List α) (k : ℕ) :
    maskFilter l (List.replicate k false) = [] := by
  induction l generalizing k with
  | nil => simp [maskFilter]
  | cons a t ih =>
    cases k with
    | zero => simp [maskFilter]
    | succ m => rw [List.replicate_succ, maskFilter_cons_false, ih m]

theorem flatten_replicate_replicate {α : Type} (a b : ℕ) (x : α) :
    ((List.replicate a (List.replicate b x)).flatten) = List.replicate (a * b) x := by
  induction a with
  | zero => simp
  | succ m ih =>
    rw [List.replicate_succ, List.flatten_cons, ih, Nat.succ_mul, Nat.add_comm,
      ← List.replicate_add]

theorem maskedAssign_all_true {α : Type} (init vals : List α) (k : ℕ)
    (hi : init.length = k) (hv : vals.length = k) :
    maskedAssign (List.replicate k true) init vals = vals := by
  induction init generalizing k vals with
  | nil =>
    cases vals with
    | nil => simp [maskedAssign]
    | cons v vs => simp at hi hv; omega
  | cons x xs ih =>
    cases k with
    | zero => simp at hi
    | succ m =>
      cases vals with
      | nil => simp at hv
      | cons v vs =>
        rw [List.replicate_succ]
        show (if true = true then (v :: vs).headD x :: maskedAssign
          (List.replicate m true) xs (v :: vs).tail
          else x :: maskedAssign (List.replicate m true) xs (v :: vs)) = v :: vs
        rw [if_pos rfl]
        simp only [List.headD_cons, List.tail_cons]
        rw [ih vs m (by simpa using hi) (by simpa using hv)]

theorem maskedAssign_all_false {α : Type} (init vals : List α) (k : ℕ) :
    maskedAssign (List.replicate k false) init vals = init := by
  induction init generalizing k vals with
  | nil =>
    cases k <;> simp [maskedAssign]
  | cons x xs ih =>
    cases k with
    | zero => simp [maskedAssign]
    | succ m =>
      rw [List.replicate_succ]
      show (if false = true then vals.headD x :: maskedAssign
        (List.replicate m false) xs vals.tail
        else x :: maskedAssign (List.replicate m false) xs vals) = x :: xs
      rw [if_neg (by simp)]
      rw [ih vals m]

theorem foldl_max_map_monotone (f : ℝ → ℕ) (hf : Monotone f) (x : ℝ) (xs : List ℝ) :
    (xs.map f).foldl max (f x) = f (xs.foldl max x) := by
  induction xs generalizing x with
  | nil => simp
  | cons y ys ih =>
    rw [List.map_cons, List.foldl_cons, List.foldl_cons, ← Monotone.map_max hf]
    exact ih (max x y)

/-- When rate and window are nonnegative, the maximum of the per-wavelet
sample counts is the shared sample count of the uniform bank. -/
theorem perSamples_foldl_max (freqs widths : List ℝ)
    (samplerate sampling_window : ℝ)
    (hrate : 0 ≤ samplerate) (hwin : 0 ≤ sampling_window)
    (hne : bankSt freqs widths ≠ []) :
    (perSamples freqs widths samplerate sampling_window).foldl max 0
      = sharedSamples freqs widths samplerate sampling_window := by
  have hmono : Monotone (fun (s : ℝ) => ⌈s * samplerate * sampling_window⌉₊) := by
    intro a b hab
    apply Nat.ceil_le_ceil
    have h1 : a * samplerate ≤ b * samplerate := mul_le_mul_of_nonneg_right hab hrate
    exact mul_le_mul_of_nonneg_right h1 hwin
  cases hbs : bankSt freqs widths with
  | nil => exact absurd hbs hne
  | cons s0 srest =>
    rw [perSamples, hbs, List.map_cons, List.foldl_cons, Nat.zero_max,
      foldl_max_map_monotone _ hmono, sharedSamples, hbs]
    simp [listMaxD]

/-- With every per-wavelet sample count above the threshold, `morlet_multi2`
puts the whole bank into the FFT group, which then coincides with the
uniform bank; the direct group is empty. -/
theorem morlet_multi2_fft_only (freqs widths : List ℝ)
    (samplerate fft_thresh sampling_window : ℝ) (complete : Bool)
    (hl : (broadcastWidths widths freqs.length).length = freqs.length)
    (hne : bankSt freqs widths ≠ [])
    (hrate : 0 ≤ samplerate) (hwin : 0 ≤ sampling_window)
    (hall : ∀ n ∈ perSamples freqs widths samplerate sampling_window,
      fft_thresh < (n : ℝ)) :
    morlet_multi2 freqs widths samplerate fft_thresh sampling_window complete
      = .ok (uniformBank freqs widths samplerate sampling_window complete, [],
             fftMask freqs widths samplerate fft_thresh sampling_window) := by
  have hn0 : 0 < freqs.length := by
    rw [← List.length_pos, bankSt_length, hl] at hne
    omega
  have hplen : (perSamples freqs widths samplerate sampling_window).length
      = freqs.length := by
    rw [perSamples, List.length_map, bankSt_length, hl]
    omega
  have hmask : fftMask freqs widths samplerate fft_thresh sampling_window
      = List.replicate freqs.length true := by
    rw [fftMask, map_eq_replicate_true _ _ (by
      intro x hx
      simp only [decide_eq_true_eq]
      exact hall x hx), hplen]
  have hany : (fftMask freqs widths samplerate fft_thresh sampling_window).any id
      = true := by
    rw [hmask]
    cases hf : freqs.length with
    | zero => omega
    | succ m => simp [List.replicate_succ]
  have hnot : (fftMask freqs widths samplerate fft_thresh sampling_window).map
      (fun b => !b) = List.replicate freqs.length false := by
    rw [hmask, List.map_replicate]
    rfl
  simp only [morlet_multi2]
  rw [if_neg (by simp [hl])]
  rw [hany, if_pos rfl, hnot, hmask]
  rw [maskFilter_all_true _ _ (le_of_eq hplen),
    maskFilter_all_true _ _ (le_of_eq hl),
    maskFilter_all_true _ _ (le_of_eq rfl),
    maskFilter_all_false, maskFilter_all_false, maskFilter_all_false]
  rw [show (perSamples freqs widths samplerate sampling_window).foldl max 0
      = sharedSamples freqs widths samplerate sampling_window from
    perSamples_foldl_max freqs widths samplerate sampling_window hrate hwin hne]
  simp [uniformBank]

theorem fconv_same_some (in1 in2 : List (List ℂ)) (cr : Bool) :
    ∃ out, fconv_multi in1 in2 "same" cr = some out ∧
      out.length = in1.length * in2.length := by
  have h1 : ((("same" : String) = "full")) = False := eq_false (by decide)
  have h2 : ((("same" : String) = "same")) = True := eq_true rfl
  simp only [fconv_multi, h1, h2, if_false, if_true]
  refine ⟨_, rfl, ?_⟩
  cases cr with
  | false => simp [fconvRows_length]
  | true => simp [fconvRows_length]

/-- With an all-true membership mask and an empty direct group, the split
coefficient matrix is exactly the FFT-path convolution result. -/
theorem splitWavCoef_all_fft (fftw : List (List ℂ)) (dat : Tensor ℂ) (nF : ℕ)
    (hhead : 0 < (fftw.headD []).length) (hrows : fftw.length = nF) :
    splitWavCoef fftw [] (List.replicate nF true) dat (reshapeTo2D dat) nF
      = fconv_multi fftw (reshapeTo2D dat) "same" true := by
  obtain ⟨M, hM, hMlen⟩ := fconv_same_some fftw (reshapeTo2D dat) true
  have hfc : ((List.replicate nF true).map
      (fun b => List.replicate (reshapeTo2D dat).length b)).flatten
      = List.replicate (nF * (reshapeTo2D dat).length) true := by
    rw [List.map_replicate, flatten_replicate_replicate]
  have hcv : ((List.replicate nF true).map
      (fun b => List.replicate (reshapeTo2D dat).length (!b))).flatten
      = List.replicate (nF * (reshapeTo2D dat).length) false := by
    rw [List.map_replicate, flatten_replicate_replicate]
    rfl
  simp only [splitWavCoef]
  rw [if_pos hhead, hM, hfc, hcv]
  simp only [Option.map_some', List.map_nil, List.flatten_nil, optionAll]
  rw [maskedAssign_all_true _ _ (nF * (reshapeTo2D dat).length)
    (by simp [Nat.mul_comm]) (by rw [hMlen, hrows]),
    maskedAssign_all_false]

theorem fftMask_length (freqs widths : List ℝ) (samplerate fft_thresh sampling_window : ℝ)
    (hl : (broadcastWidths widths freqs.length).length = freqs.length) :
    (fftMask freqs widths samplerate fft_thresh sampling_window).length
      = freqs.length := by
  rw [fftMask, List.length_map, perSamples, List.length_map, bankSt_length, hl]
  omega

theorem fftMask_all_true (freqs widths : List ℝ)
    (samplerate fft_thresh sampling_window : ℝ)
    (hl : (broadcastWidths widths freqs.length).length = freqs.length)
    (hall : ∀ n ∈ perSamples freqs widths samplerate sampling_window,
      fft_thresh < (n : ℝ)) :
    fftMask freqs widths samplerate fft_thresh sampling_window
      = List.replicate freqs.length true := by
  have hplen : (perSamples freqs widths samplerate sampling_window).length
      = freqs.length := by
    rw [perSamples, List.length_map, bankSt_length, hl]
    omega
  rw [fftMask, map_eq_replicate_true _ _ (by
    intro x hx
    simp only [decide_eq_true_eq]
    exact hall x hx), hplen]

/-- C1 (amended): in the FFT-only regime — `fft_thresh` strictly below every
per-wavelet sample count, so the whole bank is FFT-convolved — `computeSplit`
(`phase_pow_multi2`) returns exactly the same result as `computeUniform`
(`phase_pow_multi`), for every signal tensor and `to_return` mode. -/
theorem split_eq_uniform_fft_only (freqs widths : List ℝ) (dat : Tensor ℂ)
    (samplerate fft_thresh sampling_window : ℝ) (freq_axis : ℕ) (complete : Bool)
    (to_return : String)
    (hl : (broadcastWidths widths freqs.length).length = freqs.length)
    (hne : bankSt freqs widths ≠ [])
    (hrate : 0 < samplerate) (hwin : 0 < sampling_window)
    (hf : ∀ f ∈ freqs, 0 < f) (hw : ∀ w ∈ widths, 0 < w)
    (hall : ∀ n ∈ perSamples freqs widths samplerate sampling_window,
      fft_thresh < (n : ℝ)) :
    phase_pow_multi2 freqs dat samplerate widths fft_thresh to_return freq_axis
      sampling_window complete
      = phase_pow_multi freqs dat samplerate widths to_return freq_axis
        sampling_window complete := by
  by_cases hg : to_return ≠ "both" ∧ to_return ≠ "power" ∧ to_return ≠ "phase"
  · simp only [phase_pow_multi, phase_pow_multi2]
    rw [if_pos hg, if_pos hg]
  · simp only [phase_pow_multi, phase_pow_multi2]
    rw [if_neg hg, if_neg hg]
    simp only [morlet_multi_eq_ok freqs widths samplerate sampling_window complete hl hne,
      morlet_multi2_fft_only freqs widths samplerate fft_thresh sampling_window complete
        hl hne (le_of_lt hrate) (le_of_lt hwin) hall]
    have hsh := uniformBank_shape freqs widths samplerate sampling_window complete hl
    have hn0 : 0 < freqs.length := by
      rw [← List.length_pos, bankSt_length, hl] at hne
      omega
    have hbne : uniformBank freqs widths samplerate sampling_window complete ≠ [] := by
      rw [← List.length_pos, hsh.1]
      exact hn0
    have hmem : (uniformBank freqs widths samplerate sampling_window complete).headD []
        ∈ uniformBank freqs widths samplerate sampling_window complete := by
      cases hu : uniformBank freqs widths samplerate sampling_window complete with
      | nil => exact absurd hu hbne
      | cons a t => exact List.mem_cons_self a t
    have hhead := hsh.2 _ hmem
    by_cases hfit : dat.shape.getLastD 0 <
        ((uniformBank freqs widths samplerate sampling_window complete).headD []).length
    · rw [if_pos hfit, if_pos (Or.inl hfit)]
    · rw [if_neg hfit, if_neg (by rw [not_or]; exact ⟨hfit, by simp⟩)]
      rw [fftMask_all_true freqs widths samplerate fft_thresh sampling_window hl hall]
      rw [splitWavCoef_all_fft _ dat freqs.length (by
          rw [hhead]
          exact sharedSamples_pos hrate hwin hf hw hne) hsh.1]
      obtain ⟨M, hM, _⟩ := fconv_same_some
        (uniformBank freqs widths samplerate sampling_window complete)
        (reshapeTo2D dat) true
      simp only [hM]

theorem bankSt_one_two : bankSt [1] [2] = [2 / (2 * π * 1)] := by
  simp [bankSt, broadcastWidths]

theorem bankSt_one_two_val : (2 : ℝ) / (2 * π * 1) * π * 1 = 1 := by
  have hpi : (π : ℝ) ≠ 0 := Real.pi_ne_zero
  field_simp

theorem perSamples_one_two : perSamples [1] [2] π 1 = [1] := by
  rw [perSamples, bankSt_one_two, List.map_cons, List.map_nil, bankSt_one_two_val]
  simp

theorem sharedSamples_one_two : sharedSamples [1] [2] π 1 = 1 := by
  rw [sharedSamples, bankSt_one_two]
  simp only [listMaxD, List.foldl_nil]
  rw [bankSt_one_two_val]
  simp

/-- C1 counterexample: with `fft_thresh = 90` at or above the maximum wavelet
sample length (the per-wavelet sample counts are `[1]`, so the membership
mask is `[false]` and the direct-only path is forced) and a rank-3 signal
tensor of shape `1×1×4`, `phase_pow_multi` returns a result while
`phase_pow_multi2` fails: its direct path iterates the raw `dat` (not the
reshaped 2-D view), so the very first `numpy.convolve` call receives the
rank-2 `1×4` subarray and raises the "object too deep for desired array"
ValueError. -/
theorem split_vs_uniform_counterexample :
    fftMask [1] [2] π 90 1 = [false] ∧
    exceptOk (phase_pow_multi [1] ⟨[1, 1, 4], [1, 0, 0, 0]⟩ π [2] "both" 0 1 true)
      = true ∧
    phase_pow_multi2 [1] ⟨[1, 1, 4], [1, 0, 0, 0]⟩ π [2] 90 "both" 0 1 true
      = .error .depthError := by
  have hmask : fftMask [1] [2] π 90 1 = [false] := by
    rw [fftMask, perSamples_one_two, List.map_cons, List.map_nil]
    have h90 : ¬((90 : ℝ) < ((1 : ℕ) : ℝ)) := by norm_num
    simp [h90]
  have hl1 : (broadcastWidths [2] ([1] : List ℝ).length).length
      = ([1] : List ℝ).length := by
    simp [broadcastWidths]
  have hne1 : bankSt [1] [2] ≠ [] := by
    simp [bankSt, broadcastWidths]
  refine ⟨hmask, ?_, ?_⟩
  · -- the uniform extractor succeeds on the rank-1 tensor
    have hok := morlet_multi_eq_ok [1] [2] π 1 true hl1 hne1
    have hsh := uniformBank_shape [1] [2] π 1 true hl1
    have hbne : uniformBank [1] [2] π 1 true ≠ [] := by
      rw [← List.length_pos, hsh.1]
      norm_num
    have hmem : (uniformBank [1] [2] π 1 true).headD [] ∈ uniformBank [1] [2] π 1 true := by
      cases hu : uniformBank [1] [2] π 1 true with
      | nil => exact absurd hu hbne
      | cons a t => exact List.mem_cons_self a t
    have hhead : ((uniformBank [1] [2] π 1 true).headD []).length = 1 := by
      rw [hsh.2 _ hmem, sharedSamples_one_two]
    simp only [phase_pow_multi]
    rw [if_neg (by simp)]
    simp only [hok]
    rw [if_neg (by rw [hhead]; simp)]
    obtain ⟨M, hM, _⟩ := fconv_same_some (uniformBank [1] [2] π 1 true)
      (reshapeTo2D ⟨[1, 1, 4], [1, 0, 0, 0]⟩) true
    simp only [hM]
    have hb : ((("both" : String) = "power")) = False := eq_false (by decide)
    have hp : ((("both" : String) = "phase")) = False := eq_false (by decide)
    simp [ppTail, hb, hp, exceptOk]
  · -- the split extractor fails in its direct loop
    have hmm2 : ∃ regrow, morlet_multi2 [1] [2] π 90 1 true
        = .ok ([[]], [regrow], [false]) ∧ regrow.length = 1 := by
      simp only [morlet_multi2]
      rw [if_neg (by simp [broadcastWidths])]
      rw [hmask, perSamples_one_two]
      simp [maskFilter, broadcastWidths]
      rw [normalizeRow_length, morlet_wavelet_length]
    obtain ⟨regrow, hmm2, hlen1⟩ := hmm2
    simp only [phase_pow_multi2]
    rw [if_neg (by simp)]
    simp only [hmm2]
    rw [if_neg (by simp [hlen1])]
    have hsub : subTensors ⟨[1, 1, 4], ([1, 0, 0, 0] : List ℂ)⟩ =
        [⟨[1, 4], [1, 0, 0, 0]⟩] := by
      simp [subTensors, shapeProd, List.range_succ]
    have hsplit : splitWavCoef [[]] [regrow] [false] ⟨[1, 1, 4], [1, 0, 0, 0]⟩
        (reshapeTo2D ⟨[1, 1, 4], [1, 0, 0, 0]⟩) ([1] : List ℝ).length = none := by
      simp only [splitWavCoef]
      rw [if_neg (by simp)]
      rw [hsub]
      simp [npConvolveSame, optionAll]
    simp only [hsplit]

/-- Witness for the amended C1 at a concrete FFT-only instance
(`fft_thresh = 0` below the unique sample count 1). -/
theorem split_eq_uniform_fft_only_witness :
    phase_pow_multi2 [1] ⟨[4], [1, 0, 0, 0]⟩ π [2] 0 "both" 0 1 true
      = phase_pow_multi [1] ⟨[4], [1, 0, 0, 0]⟩ π [2] "both" 0 1 true := by
  apply split_eq_uniform_fft_only
  · simp [broadcastWidths]
  · simp [bankSt, broadcastWidths]
  · exact Real.pi_pos
  · exact one_pos
  · intro f hf
    have : f = 1 := by simpa using hf
    rw [this]
    norm_num
  · intro w hw
    have : w = 2 := by simpa using hw
    rw [this]
    norm_num
  · intro n hn
    rw [perSamples_one_two] at hn
    have : n = 1 := by simpa using hn
    rw [this]
    norm_num

/-- C6: for a zero-magnitude coefficient the extraction yields phase exactly
0 and power exactly 0 (the division is guarded by the magnitude-1
substitution, so no division by zero is ever performed); any other
coefficient gets phase `arg (z / |z|)`, which lies in `(-π, π]`. -/
theorem phase_pow_zero_magnitude (z : ℂ) :
    (Complex.abs z = 0 → phaseEntry z = 0 ∧ powerEntry z = 0) ∧
    (Complex.abs z ≠ 0 →
      phaseEntry z = Complex.arg (z / Complex.ofReal (Complex.abs z)) ∧
      phaseEntry z ∈ Set.Ioc (-π) π) := by
  constructor
  · intro h
    constructor
    · simp [phaseEntry, h]
    · simp [powerEntry, h]
  · intro h
    constructor
    · simp [phaseEntry, h]
    · simp only [phaseEntry, h, if_false]
      exact Complex.arg_mem_Ioc _

/-- Witness for C6 at the concrete coefficients `0` and `I`. -/
theorem phase_pow_zero_magnitude_witness :
    (phaseEntry 0 = 0 ∧ powerEntry 0 = 0) ∧
    (phaseEntry Complex.I =
        Complex.arg (Complex.I / Complex.ofReal (Complex.abs Complex.I)) ∧
      phaseEntry Complex.I ∈ Set.Ioc (-π) π) :=
  ⟨(phase_pow_zero_magnitude 0).1 (by simp),
   (phase_pow_zero_magnitude Complex.I).2 (by simp)⟩

/-! ## C5: block ordering of the coefficient matrix -/

theorem fconv_index_lt (num1 num2 b s : ℕ) (hb : b < num1) (hs : s < num2) :
    b * num2 + s < num1 * num2 := by
  have h1 : b * num2 + s < (b + 1) * num2 := by
    rw [Nat.succ_mul]
    omega
  have h2 : (b + 1) * num2 ≤ num1 * num2 := Nat.mul_le_mul_right num2 hb
  omega

theorem fconv_index_div (num2 b s : ℕ) (hs : s < num2) : (b * num2 + s) / num2 = b := by
  rw [Nat.mul_comm, Nat.mul_add_div (by omega), Nat.div_eq_of_lt hs]
  omega

theorem fconv_index_mod (num2 b s : ℕ) (hs : s < num2) : (b * num2 + s) % num2 = s := by
  rw [Nat.mul_comm, Nat.mul_add_mod, Nat.mod_eq_of_lt hs]

/-- The row of `fconvRows` at block index `b*num2+s` is the (truncated,
inverse-transformed) product of the transforms of `in1`'s row `b` and
`in2`'s row `s`. -/
theorem fconvRows_block (in1 in2 : List (List ℂ)) (b s : ℕ)
    (hb : b < in1.length) (hs : s < in2.length) :
    (fconvRows in1 in2)[b * in2.length + s]?
      = some ((ifftn (List.zipWith (· * ·)
          (fftn (in1[b])
            (2 ^ nextPow2 ((in1.headD []).length + (in2.headD []).length - 1)))
          (fftn (in2[s])
            (2 ^ nextPow2 ((in1.headD []).length + (in2.headD []).length - 1))))).take
          ((in1.headD []).length + (in2.headD []).length - 1)) := by
  have hn2 : 0 < in2.length := by omega
  have hi : b * in2.length + s < in1.length * in2.length :=
    fconv_index_lt _ _ _ _ hb hs
  have hi' : b * in2.length + s < (fconvRows in1 in2).length := by
    rw [fconvRows_length]
    exact hi
  have hgl := fconvRows_getElem in1 in2 (b * in2.length + s) hn2 hi hi'
    (by rwa [Nat.div_lt_iff_lt_mul hn2]) (Nat.mod_lt _ hn2)
  simp only [fconv_index_div _ _ _ hs, fconv_index_mod _ _ _ hs] at hgl
  rw [List.getElem?_eq_getElem hi', hgl]

/-- Number of true entries of a boolean mask. -/
def countTrue (l : List Bool) : ℕ := (l.filter id).length

theorem countTrue_nil : countTrue [] = 0 := rfl

theorem countTrue_cons_true (t : List Bool) : countTrue (true :: t) = countTrue t + 1 := by
  simp [countTrue]

theorem countTrue_cons_false (t : List Bool) : countTrue (false :: t) = countTrue t := by
  simp [countTrue]

theorem maskedAssign_cons_true {α : Type} (ms : List Bool) (x : α) (xs vals : List α) :
    maskedAssign (true :: ms) (x :: xs) vals
      = vals.headD x :: maskedAssign ms xs vals.tail := by
  simp [maskedAssign]

theorem maskedAssign_cons_false {α : Type} (ms : List Bool) (x : α) (xs vals : List α) :
    maskedAssign (false :: ms) (x :: xs) vals = x :: maskedAssign ms xs vals := by
  simp [maskedAssign]

theorem maskedAssign_true_chunk {α : Type} (k : ℕ) (ms : List Bool)
    (init vals : List α) (hk : k ≤ init.length) (hv : k ≤ vals.length) :
    maskedAssign (List.replicate k true ++ ms) init vals
      = vals.take k ++ maskedAssign ms (init.drop k) (vals.drop k) := by
  induction k generalizing init vals with
  | zero => simp
  | succ m ih =>
    cases init with
    | nil => simp at hk
    | cons x xs =>
      cases vals with
      | nil => simp at hv
      | cons v vs =>
        rw [List.replicate_succ, List.cons_append, maskedAssign_cons_true]
        simp only [List.headD_cons, List.tail_cons, List.take_succ_cons,
          List.drop_succ_cons, List.cons_append]
        rw [ih xs vs (by simpa using hk) (by simpa using hv)]

theorem maskedAssign_false_chunk {α : Type} (k : ℕ) (ms : List Bool)
    (init vals : List α) (hk : k ≤ init.length) :
    maskedAssign (List.replicate k false ++ ms) init vals
      = init.take k ++ maskedAssign ms (init.drop k) vals := by
  induction k generalizing init with
  | zero => simp
  | succ m ih =>
    cases init with
    | nil => simp at hk
    | cons x xs =>
      rw [List.replicate_succ, List.cons_append, maskedAssign_cons_false]
      simp only [List.take_succ_cons, List.drop_succ_cons, List.cons_append]
      rw [ih xs (by simpa using hk)]

/-- The entry of a block-masked assignment at position `f*nEv + e`: the rows
of the `f`-th block come from the value rows (consumed in mask order) when
the mask holds at `f`, and keep the initial rows otherwise. -/
theorem maskedAssign_block_getElem {α : Type} (m : List Bool) (nEv : ℕ)
    (init vals : List α) (f e : ℕ) (hf : f < m.length) (he : e < nEv)
    (hinit : init.length = m.length * nEv)
    (hvals : vals.length = countTrue m * nEv) :
    (maskedAssign ((m.map (List.replicate nEv)).flatten) init vals)[f * nEv + e]?
      = if m[f] then vals[countTrue (m.take f) * nEv + e]?
        else init[f * nEv + e]? := by
  induction m generalizing f init vals with
  | nil => simp at hf
  | cons b ms ih =>
    rw [List.map_cons, List.flatten_cons]
    cases b with
    | true =>
      have hkv : nEv ≤ vals.length := by
        rw [hvals, countTrue_cons_true, Nat.succ_mul]
        omega
      have hki : nEv ≤ init.length := by
        rw [hinit, List.length_cons, Nat.succ_mul]
        omega
      rw [maskedAssign_true_chunk nEv _ _ _ hki hkv]
      cases f with
      | zero =>
        simp only [Nat.zero_mul, Nat.zero_add, List.getElem_cons_zero, if_true,
          List.take_zero, countTrue_nil]
        rw [List.getElem?_append_left (by rw [List.length_take]; omega)]
        rw [List.getElem?_take_of_lt he]
      | succ g =>
        have hg : g < ms.length := by simpa using hf
        have hidx : (g + 1) * nEv + e = nEv + (g * nEv + e) := by
          rw [Nat.succ_mul]
          omega
        rw [hidx, List.getElem?_append_right (by rw [List.length_take]; omega)]
        have hsub : nEv + (g * nEv + e) - (vals.take nEv).length = g * nEv + e := by
          rw [List.length_take]
          omega
        rw [hsub]
        rw [ih (init.drop nEv) (vals.drop nEv) g hg
          (by rw [List.length_drop, hinit, List.length_cons, Nat.succ_mul]; omega)
          (by rw [List.length_drop, hvals, countTrue_cons_true, Nat.succ_mul]; omega)]
        rw [List.getElem_cons_succ]
        split
        · rw [List.getElem?_drop]
          congr 1
          rw [List.take_succ_cons, countTrue_cons_true, Nat.succ_mul]
          omega
        · rw [List.getElem?_drop]
    | false =>
      have hki : nEv ≤ init.length := by
        rw [hinit, List.length_cons, Nat.succ_mul]
        omega
      rw [maskedAssign_false_chunk nEv _ _ _ hki]
      cases f with
      | zero =>
        simp only [Nat.zero_mul, Nat.zero_add, List.getElem_cons_zero,
          Bool.false_eq_true, if_false]
        rw [List.getElem?_append_left (by rw [List.length_take]; omega)]
        rw [List.getElem?_take_of_lt he]
      | succ g =>
        have hg : g < ms.length := by simpa using hf
        have hidx : (g + 1) * nEv + e = nEv + (g * nEv + e) := by
          rw [Nat.succ_mul]
          omega
        rw [hidx, List.getElem?_append_right (by rw [List.length_take]; omega)]
        have hsub : nEv + (g * nEv + e) - (init.take nEv).length = g * nEv + e := by
          rw [List.length_take]
          omega
        rw [hsub]
        rw [ih (init.drop nEv) vals g hg
          (by rw [List.length_drop, hinit, List.length_cons, Nat.succ_mul]; omega)
          (by rw [hvals, countTrue_cons_false])]
        rw [List.getElem_cons_succ]
        split
        · rw [List.take_succ_cons, countTrue_cons_false]
        · rw [List.getElem?_drop]

theorem countTrue_append (a b : List Bool) :
    countTrue (a ++ b) = countTrue a + countTrue b := by
  simp [countTrue, List.filter_append]

theorem countTrue_le_length (m : List Bool) : countTrue m ≤ m.length := by
  simpa [countTrue] using List.length_filter_le id m

theorem countTrue_map_not (m : List Bool) :
    countTrue (m.map (fun b => !b)) = m.length - countTrue m := by
  induction m with
  | nil => rfl
  | cons b t ih =>
    cases b with
    | true =>
      rw [List.map_cons, Bool.not_true, countTrue_cons_false, countTrue_cons_true, ih,
        List.length_cons]
      omega
    | false =>
      have hle := countTrue_le_length t
      rw [List.map_cons, Bool.not_false, countTrue_cons_true, countTrue_cons_false, ih,
        List.length_cons]
      omega

theorem countTrue_take_lt (m : List Bool) (f : ℕ) (hf : f < m.length)
    (hm : m[f] = true) : countTrue (m.take f) < countTrue m := by
  conv_rhs => rw [← List.take_append_drop f m]
  rw [countTrue_append]
  rw [List.drop_eq_getElem_cons hf, hm, countTrue_cons_true]
  omega

theorem flatten_length_of_const {α : Type} (l : List (List α)) (k : ℕ)
    (h : ∀ x ∈ l, x.length = k) : l.flatten.length = l.length * k := by
  induction l with
  | nil => simp
  | cons a t ih =>
    rw [List.flatten_cons, List.length_append, h a (List.mem_cons_self a t),
      ih (fun x hx => h x (List.mem_cons_of_mem _ hx)), List.length_cons, Nat.succ_mul]
    omega

theorem getElem?_flatten_map_const {α β : Type} (g : α → List β) (l : List α)
    (k r e : ℕ) (hg : ∀ x ∈ l, (g x).length = k) (hr : r < l.length) (he : e < k) :
    ((l.map g).flatten)[r * k + e]? = (g (l[r]))[e]? := by
  induction l generalizing r with
  | nil => simp at hr
  | cons a t ih =>
    rw [List.map_cons, List.flatten_cons]
    cases r with
    | zero =>
      rw [Nat.zero_mul, Nat.zero_add,
        List.getElem?_append_left (by rw [hg a (List.mem_cons_self a t)]; exact he)]
      simp
    | succ q =>
      have hq : q < t.length := by simpa using hr
      have hidx : (q + 1) * k + e = k + (q * k + e) := by
        rw [Nat.succ_mul]
        omega
      rw [hidx, List.getElem?_append_right
        (by rw [hg a (List.mem_cons_self a t)]; omega)]
      have hsub : k + (q * k + e) - (g a).length = q * k + e := by
        rw [hg a (List.mem_cons_self a t)]
        omega
      rw [hsub, ih q (fun x hx => hg x (List.mem_cons_of_mem _ hx)) hq]
      simp

theorem optionAll_length {α : Type} (l : List (Option α)) (l' : List α)
    (h : optionAll l = some l') : l'.length = l.length := by
  induction l generalizing l' with
  | nil =>
    simp only [optionAll] at h
    injection h with h
    rw [← h]
    rfl
  | cons o t ih =>
    cases o with
    | none => simp [optionAll] at h
    | some a =>
      simp only [optionAll] at h
      cases hrec : optionAll t with
      | none => rw [hrec] at h; simp at h
      | some t' =>
        rw [hrec] at h
        simp only [Option.map_some'] at h
        injection h with h
        rw [← h, List.length_cons, ih t' hrec, List.length_cons]

theorem optionAll_getElem {α : Type} (l : List (Option α)) (l' : List α)
    (h : optionAll l = some l') (i : ℕ) : l[i]? = (l'[i]?).map some := by
  induction l generalizing l' i with
  | nil =>
    simp only [optionAll] at h
    injection h with h
    rw [← h]
    simp
  | cons o t ih =>
    cases o with
    | none => simp [optionAll] at h
    | some a =>
      simp only [optionAll] at h
      cases hrec : optionAll t with
      | none => rw [hrec] at h; simp at h
      | some t' =>
        rw [hrec] at h
        simp only [Option.map_some'] at h
        injection h with h
        rw [← h]
        cases i with
        | zero => simp
        | succ j => simpa using ih t' hrec j

theorem maskedAssign_length {α : Type} (m : List Bool) (init vals : List α) :
    (maskedAssign m init vals).length = init.length := by
  induction m generalizing init vals with
  | nil => cases init with
    | nil => rfl
    | cons x xs => rfl
  | cons b ms ih =>
    cases init with
    | nil => rfl
    | cons x xs =>
      simp only [maskedAssign]
      by_cases hb : b = true
      · rw [if_pos hb, List.length_cons, List.length_cons, ih]
      · rw [if_neg hb, List.length_cons, List.length_cons, ih]

theorem fconv_same_length (in1 in2 : List (List ℂ)) (cr : Bool)
    (out : List (List ℂ)) (h : fconv_multi in1 in2 "same" cr = some out) :
    out.length = in1.length * in2.length := by
  obtain ⟨out', h', hlen⟩ := fconv_same_some in1 in2 cr
  rw [h'] at h
  injection h with h
  rw [← h]
  exact hlen

/-- The row of the split coefficient matrix at block index `f*nEvents + e`:
an FFT-masked frequency `f` receives the FFT-path result row at the same
(frequency outer, signal inner) position among the masked frequencies, and
an unmasked frequency receives the direct convolution of its direct-group
wavelet with signal row `e` — both consistent with the original frequency
order. -/
theorem splitWavCoef_row (fftw regw : List (List ℂ)) (mask : List Bool)
    (dat : Tensor ℂ) (f e : ℕ) (M wavCoef : List (List ℂ)) (drows : List (List ℂ))
    (hf : f < mask.length) (he : e < (reshapeTo2D dat).length)
    (hpos : 0 < (fftw.headD []).length)
    (hfrows : fftw.length = countTrue mask)
    (hreg : regw.length = mask.length - countTrue mask)
    (hsub : (subTensors dat).length = (reshapeTo2D dat).length)
    (hM : fconv_multi fftw (reshapeTo2D dat) "same" true = some M)
    (hdr : optionAll ((regw.map
      (fun w => (subTensors dat).map (npConvolveSame w))).flatten) = some drows)
    (hsw : splitWavCoef fftw regw mask dat (reshapeTo2D dat) mask.length
      = some wavCoef) :
    wavCoef[f * (reshapeTo2D dat).length + e]?
      = if hc : mask[f] = true then
          M[countTrue (mask.take f) * (reshapeTo2D dat).length + e]?
        else
          npConvolveSame
            (regw.get ⟨countTrue ((mask.take f).map (fun b => !b)), by
              have hf2 : f < (mask.map (fun b => !b)).length := by
                rw [List.length_map]
                exact hf
              have hfval : (mask.map (fun b => !b))[f] = true := by
                rw [List.getElem_map]
                cases hbv : mask[f] with
                | true => exact absurd hbv hc
                | false => rfl
              rw [hreg, ← countTrue_map_not mask, List.map_take]
              exact countTrue_take_lt _ f hf2 hfval⟩)
            ((subTensors dat).get ⟨e, by rw [hsub]; exact he⟩) := by
  have hmlen : (mask.map (fun b => !b)).length = mask.length := List.length_map _ _
  -- extract the structure of wavCoef
  simp only [splitWavCoef] at hsw
  rw [if_pos hpos, hM] at hsw
  rw [hdr] at hsw
  simp only [Option.map_some'] at hsw
  injection hsw with hsw
  rw [← hsw]
  -- the outer (direct-group) masked assignment
  have hconvind : (mask.map
      (fun b => List.replicate (reshapeTo2D dat).length (!b))).flatten
      = (((mask.map (fun b => !b)).map
          (List.replicate (reshapeTo2D dat).length)).flatten) := by
    rw [List.map_map]
    rfl
  have hdlen : drows.length
      = countTrue (mask.map (fun b => !b)) * (reshapeTo2D dat).length := by
    rw [optionAll_length _ _ hdr,
      flatten_length_of_const _ (reshapeTo2D dat).length (by
        intro x hx
        simp only [List.mem_map] at hx
        obtain ⟨w, _, rfl⟩ := hx
        rw [List.length_map, hsub]),
      List.length_map, countTrue_map_not, ← hreg]
  have hAlen : (maskedAssign ((mask.map
      (fun b => List.replicate (reshapeTo2D dat).length b)).flatten)
      (List.replicate ((reshapeTo2D dat).length * mask.length)
        (List.replicate ((reshapeTo2D dat).headD []).length 0)) M).length
      = (mask.map (fun b => !b)).length * (reshapeTo2D dat).length := by
    rw [maskedAssign_length, List.length_replicate, hmlen]
    exact Nat.mul_comm _ _
  rw [hconvind]
  rw [maskedAssign_block_getElem (mask.map (fun b => !b)) (reshapeTo2D dat).length
    _ drows f e (by rw [hmlen]; exact hf) he hAlen hdlen]
  simp only [List.getElem_map]
  by_cases hc : mask[f] = true
  · rw [dif_pos hc]
    rw [if_neg (by rw [hc]; simp)]
    -- the inner (FFT-group) masked assignment
    have heta : (fun (b : Bool) => List.replicate (reshapeTo2D dat).length b)
        = List.replicate (reshapeTo2D dat).length := rfl
    rw [heta]
    rw [maskedAssign_block_getElem mask (reshapeTo2D dat).length _ M f e hf he
      (by rw [List.length_replicate]; exact Nat.mul_comm _ _)
      (by rw [fconv_same_length _ _ _ _ hM, hfrows])]
    rw [if_pos hc]
  · rw [dif_neg hc]
    have hbv : mask[f] = false := by
      cases hb2 : mask[f] with
      | true => exact absurd hb2 hc
      | false => rfl
    rw [if_pos (by rw [hbv]; rfl)]
    -- unpack the direct-group rows
    have hrank : countTrue ((mask.map (fun b => !b)).take f)
        = countTrue ((mask.take f).map (fun b => !b)) := by
      rw [List.map_take]
    have hrankbound : countTrue ((mask.take f).map (fun b => !b)) < regw.length := by
      have hf2 : f < (mask.map (fun b => !b)).length := by
        rw [hmlen]
        exact hf
      have hfval : (mask.map (fun b => !b))[f] = true := by
        rw [List.getElem_map, hbv]
        rfl
      rw [hreg, ← countTrue_map_not mask, List.map_take]
      exact countTrue_take_lt _ f hf2 hfval
    have hLidx := getElem?_flatten_map_const
      (fun w => (subTensors dat).map (npConvolveSame w)) regw
      (subTensors dat).length (countTrue ((mask.take f).map (fun b => !b))) e
      (fun x _ => List.length_map _ _) hrankbound (by rw [hsub]; exact he)
    have hopt := optionAll_getElem _ _ hdr
      (countTrue ((mask.take f).map (fun b => !b)) * (subTensors dat).length + e)
    rw [hLidx] at hopt
    rw [List.getElem?_map, List.getElem?_eq_getElem (by rw [hsub]; exact he)] at hopt
    simp only [Option.map_some'] at hopt
    have hidx : countTrue ((mask.map (fun b => !b)).take f) * (reshapeTo2D dat).length
        = countTrue ((mask.take f).map (fun b => !b)) * (subTensors dat).length := by
      rw [hrank, hsub]
    rw [hidx]
    cases hdj : drows[countTrue ((mask.take f).map (fun b => !b))
        * (subTensors dat).length + e]? with
    | none =>
      rw [hdj] at hopt
      simp at hopt
    | some v =>
      rw [hdj] at hopt
      simp only [Option.map_some'] at hopt
      injection hopt with hopt
      exact hopt.symm

/-- The expected content of output row `b*num2+s` of `fconv_multi`: the
mode-cropped, dtype-projected FFT convolution of bank row `b` with signal
row `s`. -/
def fconvModeRow (in1 in2 : List (List ℂ)) (mode : String) (cr : Bool) (b s : ℕ) :
    List ℂ :=
  let s1 := (in1.headD []).length
  let s2 := (in2.headD []).length
  let raw := (ifftn (List.zipWith (· * ·)
      (fftn (in1.getD b []) (2 ^ nextPow2 (s1 + s2 - 1)))
      (fftn (in2.getD s []) (2 ^ nextPow2 (s1 + s2 - 1))))).take (s1 + s2 - 1)
  let row := if cr then raw else raw.map (fun z => (Complex.ofReal z.re))
  if mode = "full" then row
  else if mode = "same" then centered row (if s1 > s2 then s1 else s2)
  else centered row (max s1 s2 - min s1 s2 + 1)

theorem fconv_multi_block (in1 in2 : List (List ℂ)) (mode : String) (cr : Bool)
    (out : List (List ℂ)) (b s : ℕ) (hb : b < in1.length) (hs : s < in2.length)
    (hout : fconv_multi in1 in2 mode cr = some out) :
    out[b * in2.length + s]? = some (fconvModeRow in1 in2 mode cr b s) := by
  have hraw := fconvRows_block in1 in2 b s hb hs
  have hgd1 : in1.getD b [] = in1[b] := List.getD_eq_getElem in1 [] hb
  have hgd2 : in2.getD s [] = in2[s] := List.getD_eq_getElem in2 [] hs
  simp only [fconv_multi] at hout
  simp only [fconvModeRow, hgd1, hgd2]
  by_cases hm : mode = "full"
  · rw [if_pos hm] at hout
    injection hout with hout
    rw [if_pos hm, ← hout]
    cases cr with
    | true =>
      rw [if_pos rfl]
      exact hraw
    | false =>
      rw [if_neg Bool.false_ne_true, List.getElem?_map, hraw]
      rfl
  · rw [if_neg hm] at hout
    rw [if_neg hm]
    by_cases hm2 : mode = "same"
    · rw [if_pos hm2] at hout
      injection hout with hout
      rw [if_pos hm2, ← hout, List.getElem?_map]
      cases cr with
      | true =>
        rw [if_pos rfl, hraw]
        rfl
      | false =>
        rw [if_neg Bool.false_ne_true, List.getElem?_map, hraw]
        rfl
    · rw [if_neg hm2] at hout
      rw [if_neg hm2]
      by_cases hm3 : mode = "valid"
      · rw [if_pos hm3] at hout
        injection hout with hout
        rw [← hout, List.getElem?_map]
        cases cr with
        | true =>
          rw [if_pos rfl, hraw]
          rfl
        | false =>
          rw [if_neg Bool.false_ne_true, List.getElem?_map, hraw]
          rfl
      · rw [if_neg hm3] at hout
        exact absurd hout (by simp)

/-- Concrete data for exercising the split-path scatter: a rank-2 `1×1`
signal tensor. -/
def c5dat : Tensor ℂ := ⟨[1, 1], [0]⟩

/-- The single FFT-path row produced for `c5dat`. -/
def c5row : List ℂ := centered ((ifftn (List.zipWith (· * ·)
    (fftn [(0 : ℂ)] (2 ^ nextPow2 1)) (fftn [(0 : ℂ)] (2 ^ nextPow2 1)))).take 1) 1

def c5M : List (List ℂ) := [c5row]

def c5drows : List (List ℂ) := [[0]]

def c5wav : List (List ℂ) := [c5row, [0]]

theorem c5_fconv : fconv_multi [[(0 : ℂ)]] (reshapeTo2D c5dat) "same" true
    = some c5M := rfl

theorem c5_direct : optionAll ((([[(0 : ℂ)]] : List (List ℂ)).map
    (fun w => (subTensors c5dat).map (npConvolveSame w))).flatten) = some c5drows := by
  simp [c5dat, c5drows, subTensors, shapeProd, npConvolveSame, optionAll]

theorem c5_split : splitWavCoef [[(0 : ℂ)]] [[(0 : ℂ)]] [true, false] c5dat
    (reshapeTo2D c5dat) ([true, false] : List Bool).length = some c5wav := by
  simp only [splitWavCoef]
  rw [if_pos (by decide), c5_fconv, c5_direct]
  simp only [Option.map_some']
  simp [c5M, c5wav, c5drows, maskedAssign, reshapeTo2D, c5dat, shapeProd]

/-- C5: the coefficient matrix is laid out in frequency-outer/signal-inner
block order on both convolution paths.  (i) `fconv_multi` places the
(mode-cropped) convolution of bank row `b` with signal row `s` at output
row `b*num2+s` in every mode.  (ii) `phase_pow_multi2`'s scatter step
(`splitWavCoef`) places the row for frequency `f` and signal `e` at
`f*nEvents+e` in the caller's original frequency order: an FFT-masked
frequency receives the FFT-path (`fconv_multi`) row at its rank among the
masked frequencies, an unmasked frequency the direct `numpy.convolve` of
its direct-group wavelet with signal `e`. -/
theorem coefficient_block_order :
    (∀ (in1 in2 : List (List ℂ)) (mode : String) (cr : Bool)
        (out : List (List ℂ)) (b s : ℕ),
        b < in1.length → s < in2.length →
        fconv_multi in1 in2 mode cr = some out →
        out[b * in2.length + s]? = some (fconvModeRow in1 in2 mode cr b s))
    ∧ (∀ (fftw regw : List (List ℂ)) (mask : List Bool) (dat : Tensor ℂ)
        (f e : ℕ) (M wavCoef drows : List (List ℂ)),
        f < mask.length → e < (reshapeTo2D dat).length →
        0 < (fftw.headD []).length →
        fftw.length = countTrue mask →
        regw.length = mask.length - countTrue mask →
        (subTensors dat).length = (reshapeTo2D dat).length →
        fconv_multi fftw (reshapeTo2D dat) "same" true = some M →
        optionAll ((regw.map
          (fun w => (subTensors dat).map (npConvolveSame w))).flatten) = some drows →
        splitWavCoef fftw regw mask dat (reshapeTo2D dat) mask.length = some wavCoef →
        wavCoef[f * (reshapeTo2D dat).length + e]?
          = if mask.getD f false then
              M[countTrue (mask.take f) * (reshapeTo2D dat).length + e]?
            else
              npConvolveSame
                (regw.getD (countTrue ((mask.take f).map (fun b => !b))) [])
                ((subTensors dat).getD e ⟨[], []⟩)) := by
  constructor
  · intro in1 in2 mode cr out b s hb hs hout
    exact fconv_multi_block in1 in2 mode cr out b s hb hs hout
  · intro fftw regw mask dat f e M wavCoef drows hf he hpos hfrows hreg hsub hM hdr hsw
    have h := splitWavCoef_row fftw regw mask dat f e M wavCoef drows hf he hpos
      hfrows hreg hsub hM hdr hsw
    by_cases hc : mask[f] = true
    · rw [dif_pos hc] at h
      rw [if_pos (by rw [List.getD_eq_getElem mask false hf]; exact hc)]
      exact h
    · rw [dif_neg hc] at h
      have hbv : mask[f] = false := by
        cases hb2 : mask[f] with
        | true => exact absurd hb2 hc
        | false => rfl
      have hrankbound : countTrue ((mask.take f).map (fun b => !b)) < regw.length := by
        have hf2 : f < (mask.map (fun b => !b)).length := by
          rw [List.length_map]
          exact hf
        have hfval : (mask.map (fun b => !b))[f] = true := by
          rw [List.getElem_map, hbv]
          rfl
        rw [hreg, ← countTrue_map_not mask, List.map_take]
        exact countTrue_take_lt _ f hf2 hfval
      rw [if_neg (by rw [List.getD_eq_getElem mask false hf]; exact hc)]
      rw [List.getD_eq_getElem regw [] hrankbound,
        List.getD_eq_getElem (subTensors dat) ⟨[], []⟩ (by rw [hsub]; exact he)]
      exact h

theorem coefficient_block_order_witness :
    (fconvRows [[(1 : ℂ)]] [[(1 : ℂ)], [(0 : ℂ)]])[0 * 2 + 1]?
        = some (fconvModeRow [[(1 : ℂ)]] [[(1 : ℂ)], [(0 : ℂ)]] "full" true 0 1)
    ∧ c5wav[0 * (reshapeTo2D c5dat).length + 0]?
        = if ([true, false].getD 0 false) then
            c5M[countTrue (([true, false] : List Bool).take 0)
              * (reshapeTo2D c5dat).length + 0]?
          else
            npConvolveSame
              (([[(0 : ℂ)]] : List (List ℂ)).getD
                (countTrue ((([true, false] : List Bool).take 0).map (fun b => !b))) [])
              ((subTensors c5dat).getD 0 ⟨[], []⟩) := by
  constructor
  · exact coefficient_block_order.1 [[(1 : ℂ)]] [[(1 : ℂ)], [(0 : ℂ)]] "full" true
      (fconvRows [[(1 : ℂ)]] [[(1 : ℂ)], [(0 : ℂ)]]) 0 1 (by decide) (by decide) rfl
  · exact coefficient_block_order.2 [[(0 : ℂ)]] [[(0 : ℂ)]] [true, false] c5dat 0 0
      c5M c5wav c5drows (by decide) (by decide) (by decide) (by decide) (by decide)
      (by decide) c5_fconv c5_direct c5_split

/-! ## C10: (phase, power) return order for to_return = "both" -/

theorem ppTail_both (wavCoef : List (List ℂ)) (ns : List ℕ) :
    ppTail "both" wavCoef ns
      = .ok (.both (reshapeFrom2D (phaseMat wavCoef) ns)
                   (reshapeFrom2D (powerMat wavCoef) ns)) := by
  have hb : ((("both" : String) = "power")) = False := eq_false (by decide)
  have hp : ((("both" : String) = "phase")) = False := eq_false (by decide)
  simp [ppTail, hb, hp]

theorem phase_pow_multi_run (freqs widths : List ℝ) (dat : Tensor ℂ)
    (samplerate sampling_window : ℝ) (freq_axis : ℕ) (complete : Bool)
    (bank wavCoef : List (List ℂ))
    (hok : morlet_multi freqs widths samplerate sampling_window complete = .ok bank)
    (hfit : ¬ dat.shape.getLastD 0 < (bank.headD []).length)
    (hconv : fconv_multi bank (reshapeTo2D dat) "same" true = some wavCoef) :
    phase_pow_multi freqs dat samplerate widths "both" freq_axis
      sampling_window complete
      = .ok (.both
          (reshapeFrom2D (phaseMat wavCoef) (insertAt freq_axis freqs.length dat.shape))
          (reshapeFrom2D (powerMat wavCoef) (insertAt freq_axis freqs.length dat.shape))) := by
  simp only [phase_pow_multi]
  rw [if_neg (by simp)]
  simp only [hok]
  rw [if_neg hfit]
  simp only [hconv]
  exact ppTail_both wavCoef _

theorem phase_pow_multi2_run (freqs widths : List ℝ) (dat : Tensor ℂ)
    (samplerate fft_thresh sampling_window : ℝ) (freq_axis : ℕ) (complete : Bool)
    (fftw regw : List (List ℂ)) (mask : List Bool) (wavCoef : List (List ℂ))
    (hok2 : morlet_multi2 freqs widths samplerate fft_thresh sampling_window complete
      = .ok (fftw, regw, mask))
    (hfit : ¬(dat.shape.getLastD 0 < (fftw.headD []).length ∨
      (regw ≠ [] ∧ dat.shape.getLastD 0 < (regw.map List.length).foldl max 0)))
    (hsw : splitWavCoef fftw regw mask dat (reshapeTo2D dat) freqs.length
      = some wavCoef) :
    phase_pow_multi2 freqs dat samplerate widths fft_thresh "both" freq_axis
      sampling_window complete
      = .ok (.both
          (reshapeFrom2D (phaseMat wavCoef) (insertAt freq_axis freqs.length dat.shape))
          (reshapeFrom2D (powerMat wavCoef) (insertAt freq_axis freqs.length dat.shape))) := by
  simp only [phase_pow_multi2]
  rw [if_neg (by simp)]
  simp only [hok2]
  rw [if_neg hfit]
  simp only [hsw]
  exact ppTail_both wavCoef _

/-- C10: whenever `to_return = "both"` succeeds, both extractors return the
pair with phase first and power second (`return phase,power`), the phase
tensor built by `phaseMat` and the power tensor by `powerMat` from the same
coefficient matrix. -/
theorem both_returns_phase_first (freqs widths : List ℝ) (dat : Tensor ℂ)
    (samplerate fft_thresh sampling_window : ℝ) (freq_axis : ℕ) (complete : Bool)
    (r r2 : PPResult) :
    (phase_pow_multi freqs dat samplerate widths "both" freq_axis
        sampling_window complete = .ok r →
      ∃ wavCoef, r = .both
        (reshapeFrom2D (phaseMat wavCoef) (insertAt freq_axis freqs.length dat.shape))
        (reshapeFrom2D (powerMat wavCoef) (insertAt freq_axis freqs.length dat.shape))) ∧
    (phase_pow_multi2 freqs dat samplerate widths fft_thresh "both" freq_axis
        sampling_window complete = .ok r2 →
      ∃ wavCoef, r2 = .both
        (reshapeFrom2D (phaseMat wavCoef) (insertAt freq_axis freqs.length dat.shape))
        (reshapeFrom2D (powerMat wavCoef) (insertAt freq_axis freqs.length dat.shape))) := by
  constructor
  · intro h
    simp only [phase_pow_multi] at h
    rw [if_neg (by simp)] at h
    cases hmm : morlet_multi freqs widths samplerate sampling_window complete with
    | error e =>
      rw [hmm] at h
      exact absurd h (by simp)
    | ok bank =>
      simp only [hmm] at h
      by_cases hfit : dat.shape.getLastD 0 < (bank.headD []).length
      · rw [if_pos hfit] at h
        exact absurd h (by simp)
      · rw [if_neg hfit] at h
        cases hcv : fconv_multi bank (reshapeTo2D dat) "same" true with
        | none =>
          simp only [hcv] at h
          exact absurd h (by simp)
        | some wavCoef =>
          simp only [hcv] at h
          rw [ppTail_both] at h
          injection h with h
          exact ⟨wavCoef, h.symm⟩
  · intro h
    simp only [phase_pow_multi2] at h
    rw [if_neg (by simp)] at h
    cases hmm : morlet_multi2 freqs widths samplerate fft_thresh sampling_window complete with
    | error e =>
      rw [hmm] at h
      exact absurd h (by simp)
    | ok t =>
      obtain ⟨fftw, regw, mask⟩ := t
      simp only [hmm] at h
      by_cases hfit : dat.shape.getLastD 0 < (fftw.headD []).length ∨
          (regw ≠ [] ∧ dat.shape.getLastD 0 < (regw.map List.length).foldl max 0)
      · rw [if_pos hfit] at h
        exact absurd h (by simp)
      · rw [if_neg hfit] at h
        cases hsw : splitWavCoef fftw regw mask dat (reshapeTo2D dat) freqs.length with
        | none =>
          simp only [hsw] at h
          exact absurd h (by simp)
        | some wavCoef =>
          simp only [hsw] at h
          rw [ppTail_both] at h
          injection h with h
          exact ⟨wavCoef, h.symm⟩

/-- Witness for C10: a concrete successful `both` run of each extractor. -/
theorem both_returns_phase_first_witness :
    (∃ r, phase_pow_multi [1] ⟨[4], [1, 0, 0, 0]⟩ π [2] "both" 0 1 true = .ok r ∧
      ∃ wavCoef, r = .both
        (reshapeFrom2D (phaseMat wavCoef) (insertAt 0 ([1] : List ℝ).length [4]))
        (reshapeFrom2D (powerMat wavCoef) (insertAt 0 ([1] : List ℝ).length [4]))) ∧
    (∃ r2, phase_pow_multi2 [1] ⟨[4], [1, 0, 0, 0]⟩ π [2] 0 "both" 0 1 true = .ok r2 ∧
      ∃ wavCoef, r2 = .both
        (reshapeFrom2D (phaseMat wavCoef) (insertAt 0 ([1] : List ℝ).length [4]))
        (reshapeFrom2D (powerMat wavCoef) (insertAt 0 ([1] : List ℝ).length [4]))) := by
  have hl1 : (broadcastWidths [2] ([1] : List ℝ).length).length
      = ([1] : List ℝ).length := by
    simp [broadcastWidths]
  have hne1 : bankSt [1] [2] ≠ [] := by
    simp [bankSt, broadcastWidths]
  have hok := morlet_multi_eq_ok [1] [2] π 1 true hl1 hne1
  have hsh := uniformBank_shape [1] [2] π 1 true hl1
  have hbne : uniformBank [1] [2] π 1 true ≠ [] := by
    rw [← List.length_pos, hsh.1]
    norm_num
  have hmem : (uniformBank [1] [2] π 1 true).headD [] ∈ uniformBank [1] [2] π 1 true := by
    cases hu : uniformBank [1] [2] π 1 true with
    | nil => exact absurd hu hbne
    | cons a t => exact List.mem_cons_self a t
  have hhead : ((uniformBank [1] [2] π 1 true).headD []).length = 1 := by
    rw [hsh.2 _ hmem, sharedSamples_one_two]
  have hfit : ¬ (⟨[4], [1, 0, 0, 0]⟩ : Tensor ℂ).shape.getLastD 0 <
      ((uniformBank [1] [2] π 1 true).headD []).length := by
    rw [hhead]
    simp
  obtain ⟨M, hM, _⟩ := fconv_same_some (uniformBank [1] [2] π 1 true)
    (reshapeTo2D ⟨[4], [1, 0, 0, 0]⟩) true
  have h1 := phase_pow_multi_run [1] [2] ⟨[4], [1, 0, 0, 0]⟩ π 1 0 true
    (uniformBank [1] [2] π 1 true) M hok hfit hM
  have hall0 : ∀ n ∈ perSamples [1] [2] π 1, (0 : ℝ) < (n : ℝ) := by
    intro n hn
    rw [perSamples_one_two] at hn
    have : n = 1 := by simpa using hn
    rw [this]
    norm_num
  have hok2 := morlet_multi2_fft_only [1] [2] π 0 1 true hl1 hne1
    (le_of_lt Real.pi_pos) (by norm_num) hall0
  have hmaskeq := fftMask_all_true [1] [2] π 0 1 hl1 hall0
  have hsw : splitWavCoef (uniformBank [1] [2] π 1 true) []
      (fftMask [1] [2] π 0 1) ⟨[4], [1, 0, 0, 0]⟩
      (reshapeTo2D ⟨[4], [1, 0, 0, 0]⟩) ([1] : List ℝ).length = some M := by
    rw [hmaskeq]
    rw [show (([1] : List ℝ).length) = 1 from by simp]
    rw [splitWavCoef_all_fft _ _ 1 (by rw [hhead]; norm_num) (by rw [hsh.1]; simp)]
    exact hM
  have hfit2 : ¬((⟨[4], [1, 0, 0, 0]⟩ : Tensor ℂ).shape.getLastD 0 <
      ((uniformBank [1] [2] π 1 true).headD []).length ∨
      (([] : List (List ℂ)) ≠ [] ∧ (⟨[4], [1, 0, 0, 0]⟩ : Tensor ℂ).shape.getLastD 0 <
        (([] : List (List ℂ)).map List.length).foldl max 0)) := by
    rw [not_or]
    exact ⟨hfit, by simp⟩
  have h2 := phase_pow_multi2_run [1] [2] ⟨[4], [1, 0, 0, 0]⟩ π 0 1 0 true
    (uniformBank [1] [2] π 1 true) [] (fftMask [1] [2] π 0 1) M hok2 hfit2 hsw
  constructor
  · exact ⟨_, h1, (both_returns_phase_first [1] [2] ⟨[4], [1, 0, 0, 0]⟩ π 0 1 0 true
      _ (.power (reshapeFrom2D [] []))).1 h1⟩
  · exact ⟨_, h2, (both_returns_phase_first [1] [2] ⟨[4], [1, 0, 0, 0]⟩ π 0 1 0 true
      (.power (reshapeFrom2D [] [])) _).2 h2⟩

end

end Ptsa
